import Mathlib

/-!
Verification of the dependency-resolution core of the `code-modernizer`
repository (`src/analyzer/dependency_analyzer.py` and
`src/modernizer/dependency_analyzer.py`).

The Python code is shallowly embedded: strings are `List Char`, the
relevant parts of the Python standard library (`os.path.normpath`,
`os.path.join`, `os.path.relpath`, `os.path.isabs`, `re.findall`,
`re.match`) are modelled as executable Lean functions with POSIX
semantics, and the two `DependencyAnalyzer` classes are translated
method by method.  File reads are modelled by a function from paths to
a `ReadResult`, distinguishing a successful read, a read failure that
raises `IOError` (missing file / permission error), and a read failure
that raises `UnicodeDecodeError` (invalid UTF-8); in Python the
`except IOError` handler catches the former but not the latter, which
is a `ValueError`.

Recursion in `_analyze_file` is embedded with explicit fuel so every
definition is a computable total function; a fuel-irrelevance theorem
shows that any fuel larger than the candidate-file count yields the
same result, which is the formal counterpart of termination of the
Python recursion.
-/

/-- Python strings are modelled as lists of characters. -/
abbrev Str := List Char

namespace PyStr

/-- Python substring containment `pat in s`. -/
def subStr (pat : Str) : Str → Bool
  | [] => pat.isEmpty
  | c :: cs => pat.isPrefixOf (c :: cs) || subStr pat cs

/-- Python `str.lower()` (ASCII case folding, which covers every string the
analyzer lowercases). -/
def lowerStr (s : Str) : Str := s.map Char.toLower

/-- Python `str.endswith(suffix)`. -/
def endsWith (suffix s : Str) : Bool := suffix.isSuffixOf s

end PyStr

namespace PyPath

/-- Python `str.split(sep)` for a one-character separator: splits into the
pieces between separator occurrences, keeping empty pieces, so the result
always has one more piece than there are separators. -/
def splitChar (sep : Char) : Str → List Str
  | [] => [[]]
  | c :: cs =>
    if c = sep then [] :: splitChar sep cs
    else
      match splitChar sep cs with
      | [] => [[c]]
      | h :: t => (c :: h) :: t

/-- `sep.join(pieces)` for the one-character separator `/`. -/
def joinSep : List Str → Str
  | [] => []
  | [p] => p
  | p :: ps => p ++ '/' :: joinSep ps

/-- `os.path.isabs` on POSIX: the path starts with `/`. -/
def isabs (p : Str) : Bool := (['/'] : Str).isPrefixOf p

/-- The parent-directory component `os.pardir`, i.e. `..`. -/
def dd : Str := ['.', '.']

/-- The loop body of `posixpath.normpath`: process one path component
against the stack of already-kept components.  `initialSlashes` is nonzero
exactly when the path is absolute. -/
def npStep (initialSlashes : Nat) (acc : List Str) (comp : Str) : List Str :=
  if comp = [] ∨ comp = ['.'] then acc
  else if comp ≠ dd ∨ (initialSlashes = 0 ∧ acc = []) ∨
      (acc ≠ [] ∧ acc.getLast? = some dd) then acc ++ [comp]
  else acc.dropLast

/-- The number of leading slashes `posixpath.normpath` preserves: 2 for a
path starting with exactly two slashes (POSIX special case), otherwise 1
for an absolute path and 0 for a relative one. -/
def initialSlashes (p : Str) : Nat :=
  if (['/', '/'] : Str).isPrefixOf p ∧ ¬ (['/', '/', '/'] : Str).isPrefixOf p then 2
  else if (['/'] : Str).isPrefixOf p then 1
  else 0

/-- `posixpath.normpath`: collapse `.`, `..` and repeated slashes. -/
def normpath (p : Str) : Str :=
  if p = [] then ['.']
  else
    let ini := initialSlashes p
    let newComps := (splitChar '/' p).foldl (npStep ini) []
    let joined := List.replicate ini '/' ++ joinSep newComps
    if joined = [] then ['.'] else joined

/-- `posixpath.join(a, b)` (two-argument form). -/
def joinP (a b : Str) : Str :=
  if isabs b then b
  else if a = [] ∨ a.getLast? = some '/' then a ++ b
  else a ++ '/' :: b

/-- `posixpath.abspath(p)` relative to the process working directory
`cwd`: make the path absolute, then normalize it. -/
def abspath (cwd p : Str) : Str :=
  if isabs p then normpath p else normpath (joinP cwd p)

/-- Length of the longest common prefix of two component lists, as computed
by `genericpath.commonprefix`. -/
def lcpLength : List Str → List Str → Nat
  | a :: as, b :: bs => if a = b then lcpLength as bs + 1 else 0
  | _, _ => 0

/-- `posixpath.relpath(path, start)`: both arguments are made absolute
against `cwd`, split into nonempty components, and the relative path is
built from `..` segments followed by the uncommon tail of `path`. -/
def relpath (cwd path start : Str) : Str :=
  let pathList := (splitChar '/' (abspath cwd path)).filter (fun c => ¬ c.isEmpty)
  let startList := (splitChar '/' (abspath cwd start)).filter (fun c => ¬ c.isEmpty)
  let i := lcpLength startList pathList
  let relList := List.replicate (startList.length - i) dd ++ pathList.drop i
  if relList = [] then ['.'] else joinSep relList

end PyPath

/-!
## A backtracking regular-expression engine

Models the fragment of Python `re` used by the analyzer: literals,
character classes, concatenation, alternation, greedy and lazy
repetition, and a single capturing group.  All of the analyzer's
patterns are compiled with `re.IGNORECASE`, so literal characters are
compared case-insensitively.  Matching is defined by enumerating the
backtracking alternatives in exactly Python's preference order, so the
head of the alternative list is the match Python's engine reports.
Recursion is fueled; the fuel is consumed at every recursive step and a
fuel of `(length + 1) * (size + 1)` is comfortably larger than the
deepest possible call chain, because descending into a subterm shrinks
the pattern and unfolding a repetition consumes at least one input
character (the engine drops repetition branches that consume nothing,
which matches Python's refusal to loop on an empty repetition match).
-/

namespace PyRe

/-- Regular expressions: literal characters (compared case-insensitively,
modelling `re.IGNORECASE`), character classes given by a predicate,
sequencing, alternation, greedy/lazy Kleene star, and the one capturing
group each of the analyzer's patterns contains. -/
inductive RE where
  | eps : RE
  | lit : Char → RE
  | cls : (Char → Bool) → RE
  | seq : RE → RE → RE
  | alt : RE → RE → RE
  | star : Bool → RE → RE
  | group : RE → RE

namespace RE

/-- Size of a pattern, used to bound the matcher's fuel. -/
def size : RE → Nat
  | eps => 1
  | lit _ => 1
  | cls _ => 1
  | seq a b => size a + size b + 1
  | alt a b => size a + size b + 1
  | star _ a => size a + 1
  | group a => size a + 1

end RE

/-- Combine the captures of two sequenced subpatterns (each pattern has a
single group, so at most one side captures). -/
def mergeCap (a b : Option Str) : Option Str :=
  match a with
  | some x => some x
  | none => b

/-- All backtracking alternatives for matching `r` against a prefix of
`s`, in Python's preference order.  Each alternative is the remaining
input together with the text captured by the capturing group, if the
group participated.  The head of the list is the match Python reports. -/
def mlist : Nat → RE → Str → List (Str × Option Str)
  | _, .eps, s => [(s, none)]
  | _, .lit _, [] => []
  | _, .lit c, x :: xs => if x.toLower = c.toLower then [(xs, none)] else []
  | _, .cls _, [] => []
  | _, .cls p, x :: xs => if p x then [(xs, none)] else []
  | 0, .seq _ _, _ => []
  | fuel + 1, .seq a b, s =>
    (mlist fuel a s).flatMap fun r1 =>
      (mlist fuel b r1.1).map fun r2 => (r2.1, mergeCap r1.2 r2.2)
  | 0, .alt _ _, _ => []
  | fuel + 1, .alt a b, s => mlist fuel a s ++ mlist fuel b s
  | 0, .group _, _ => []
  | fuel + 1, .group a, s =>
    (mlist fuel a s).map fun r => (r.1, some (s.take (s.length - r.1.length)))
  | 0, .star _ _, _ => []
  | fuel + 1, .star g a, s =>
    let more := (mlist fuel a s).flatMap fun r1 =>
      if r1.1.length < s.length then
        (mlist fuel (.star g a) r1.1).map fun r2 => (r2.1, mergeCap r1.2 r2.2)
      else []
    if g then more ++ [(s, none)] else (s, none) :: more

/-- Fuel that is always sufficient for `mlist` on input `s`. -/
def matchFuel (r : RE) (s : Str) : Nat := (s.length + 1) * (r.size + 1)

/-- The match Python's engine reports for `r` at the start of `s`, if
any: remaining input and group capture. -/
def matchHead (r : RE) (s : Str) : Option (Str × Option Str) :=
  (mlist (matchFuel r s) r s).head?

/-- `re.match(r, s)` viewed as a Boolean: does `r` match at the start of
`s`? -/
def matchesAt (r : RE) (s : Str) : Bool := (matchHead r s).isSome

/-- The scanning loop of `re.findall` for a pattern with one capturing
group: at each position report the group of the leftmost match and
resume after it (advancing one character after an empty match), or slide
one character forward when there is no match. -/
def findAllAux (r : RE) : Nat → Str → List Str
  | 0, _ => []
  | fuel + 1, s =>
    match matchHead r s with
    | some (rest, cap) =>
      let m := cap.getD []
      if rest.length < s.length then m :: findAllAux r fuel rest
      else
        match s with
        | [] => [m]
        | _ :: tail => m :: findAllAux r fuel tail
    | none =>
      match s with
      | [] => []
      | _ :: tail => findAllAux r fuel tail

/-- `re.findall(r, s, re.IGNORECASE)` for a single-group pattern: the
list of group-1 captures of all non-overlapping matches, left to
right. -/
def findAll (r : RE) (s : Str) : List Str := findAllAux r (s.length + 1) s

/-! ### Character classes and helpers used by the analyzer's patterns -/

/-- The class `[^'"]`. -/
def notQuote (c : Char) : Bool := ¬ (c = '\'' ∨ c = '"')

/-- The quote class `['"]`. -/
def quote : RE := .cls fun c => c = '\'' ∨ c = '"'

/-- Python `\s` (ASCII whitespace; sufficient for the analyzer's ASCII
patterns). -/
def wsChar (c : Char) : Bool :=
  c = ' ' ∨ c = '\t' ∨ c = '\n' ∨ c = '\x0b' ∨ c = '\x0c' ∨ c = '\r'

/-- Python `.` without `re.DOTALL`: any character except a newline. -/
def dotChar (c : Char) : Bool := ¬ c = '\n'

/-- Python `\w` (ASCII word characters; sufficient for the analyzer's
ASCII inputs). -/
def wordChar (c : Char) : Bool := c.isAlphanum ∨ c = '_'

/-- A sequence of literal characters. -/
def lits (s : Str) : RE := s.foldr (fun c r => .seq (.lit c) r) .eps

/-- `r?` (greedy option). -/
def opt (r : RE) : RE := .alt r .eps

/-- `r+` (greedy). -/
def plus (r : RE) : RE := .seq r (.star true r)

/-- `r*` (greedy). -/
def starG (r : RE) : RE := .star true r

/-- `r*?` (lazy). -/
def starL (r : RE) : RE := .star false r

/-- `\s*`. -/
def wsStar : RE := starG (.cls wsChar)

/-- `\s+`. -/
def wsPlus : RE := plus (.cls wsChar)

/-- `([^'"]+)`: the capturing group shared by most patterns. -/
def capNotQuote : RE := .group (plus (.cls notQuote))

end PyRe

/-!
## Shared plumbing of the embedding

Types shared by the two `DependencyAnalyzer` translations: read results,
the file system, edges, the constructor arguments, and the mutable state
of a resolution run.
-/

/-- Outcome of `open(path, 'r', encoding='utf-8').read()`:
* `ok content` — the read succeeds;
* `ioError` — the read raises `IOError` (`OSError`): missing file or
  permission error;
* `decodeError` — the read raises `UnicodeDecodeError` (invalid UTF-8),
  which in Python is a `ValueError`, not an `IOError`. -/
inductive ReadResult where
  | ok : Str → ReadResult
  | ioError : ReadResult
  | decodeError : ReadResult
deriving DecidableEq

/-- The file system visible to the analyzer. -/
abbrev Fs := Str → ReadResult

instance exceptDecEq {e a : Type} [DecidableEq e] [DecidableEq a] :
    DecidableEq (Except e a) := fun x y =>
  match x, y with
  | .error u, .error v =>
    if h : u = v then isTrue (by rw [h]) else isFalse (by simp [h])
  | .ok u, .ok v =>
    if h : u = v then isTrue (by rw [h]) else isFalse (by simp [h])
  | .error _, .ok _ => isFalse (by simp)
  | .ok _, .error _ => isFalse (by simp)

/-- An edge `(full_file_path, full_dep_path, root_dir)` as appended to
`edge_list`. -/
abbrev Edge := Str × Str × Str

/-- The constructor arguments of `DependencyAnalyzer`, plus the process
working directory `cwd` that `os.path.relpath` consults implicitly via
`os.path.abspath`. -/
structure Config where
  files : List Str
  root_dir : Str
  exclude_images : Bool
  handle_dynamic : Bool
  cwd : Str

/-- The mutable state threaded through `_analyze_file`: the
`analyzed_files` visited set (as a list of distinct elements), the
`edge_list` accumulator, and `extracted_log`, an observation trace
recording each file on which `extract_dependencies` is invoked (the code
calls it exactly when a file is newly added to `analyzed_files`). -/
structure AState where
  analyzed_files : List Str
  extracted_log : List Str
  edge_list : List Edge
deriving DecidableEq

/-- The initial state of a resolution run on a fresh instance. -/
def AState.init : AState := ⟨[], [], []⟩

namespace Analyzer

open PyStr PyPath PyRe

/-!
Translation of `src/analyzer/dependency_analyzer.py`.
-/

/-- `php_patterns`. -/
def php_patterns : List RE :=
  [ .seq (.alt (lits "include".data) (lits "require".data)) (.seq (opt (lits "_once".data))
      (.seq wsStar (.seq quote (.seq capNotQuote quote)))),
    .seq (lits "use".data) (.seq wsPlus (.group (plus (.cls fun c => ¬ c = ';')))),
    .seq (lits "<script".data) (.seq (starG (.cls fun c => ¬ c = '>'))
      (.seq (lits "src=".data) (.seq quote (.seq capNotQuote quote)))),
    .seq (lits "echo".data) (.seq wsStar (.seq quote (.seq (lits "<script".data)
      (.seq (starG (.cls fun c => ¬ c = '>'))
        (.seq (lits "src=".data) (.seq quote (.seq capNotQuote quote))))))),
    .seq (lits "<link".data) (.seq (starG (.cls fun c => ¬ c = '>'))
      (.seq (lits "href=".data) (.seq quote
        (.seq (.group (.seq (plus (.cls notQuote)) (lits ".css".data))) quote)))),
    .seq (lits "<img".data) (.seq (starG (.cls fun c => ¬ c = '>'))
      (.seq (lits "src=".data) (.seq quote (.seq capNotQuote quote)))) ]

/-- `js_patterns`. -/
def js_patterns : List RE :=
  [ .seq (.alt (lits "import".data) (lits "export".data))
      (.seq (opt (.seq (starL (.cls dotChar)) (lits "from".data)))
        (.seq wsPlus (.seq quote (.seq capNotQuote quote)))),
    .seq (opt (.alt (lits "const".data) (.alt (lits "let".data) (lits "var".data))))
      (.seq wsStar (.seq (starL (.cls dotChar)) (.seq (lits "require".data)
        (.seq wsStar (.seq (.lit '(') (.seq wsStar
          (.seq quote (.seq capNotQuote quote)))))))),
    .seq (lits "import".data) (.seq wsStar (.seq (.lit '(')
      (.seq wsStar (.seq quote (.seq capNotQuote quote))))),
    .seq (lits "fetch".data) (.seq wsStar (.seq (.lit '(')
      (.seq wsStar (.seq quote (.seq capNotQuote quote))))),
    .seq (.lit '$') (.seq (.lit '.') (.seq (lits "ajax".data) (.seq wsStar
      (.seq (.lit '(') (.seq wsStar (.seq (.lit '\x7b')
        (.seq (starG (.cls fun c => ¬ c = '\x7d')) (.seq (lits "url".data)
          (.seq wsStar (.seq (.lit ':') (.seq wsStar
            (.seq quote (.seq capNotQuote quote))))))))))))),
    .seq (.lit '.') (.seq (lits "open".data) (.seq wsStar (.seq (.lit '(')
      (.seq wsStar (.seq quote (.seq (.alt (lits "GET".data) (.alt (lits "POST".data)
        (.alt (lits "PUT".data) (lits "DELETE".data)))) (.seq quote
          (.seq (.lit ',') (.seq wsStar (.seq quote
            (.seq capNotQuote quote))))))))))) ]

/-- `html_patterns`. -/
def html_patterns : List RE :=
  [ .seq (lits "<script".data) (.seq (starG (.cls fun c => ¬ c = '>'))
      (.seq (lits "src=".data) (.seq quote (.seq capNotQuote quote)))),
    .seq (lits "<link".data) (.seq (starG (.cls fun c => ¬ c = '>'))
      (.seq (lits "href=".data) (.seq quote
        (.seq (.group (.seq (plus (.cls notQuote)) (lits ".css".data))) quote)))),
    .seq (lits "<img".data) (.seq (starG (.cls fun c => ¬ c = '>'))
      (.seq (lits "src=".data) (.seq quote (.seq capNotQuote quote)))) ]

/-- `css_patterns`. -/
def css_patterns : List RE :=
  [ .seq (lits "@import".data) (.seq wsPlus (.seq quote (.seq capNotQuote quote))),
    .seq (lits "url".data) (.seq wsStar (.seq (.lit '(') (.seq wsStar
      (.seq (opt quote) (.seq capNotQuote (.seq (opt quote)
        (.seq wsStar (.lit ')')))))))) ]

/-- An identifier-start character of the interpolation pattern
`\$[a-zA-Z_\x7f-\xff]`. -/
def identStart (c : Char) : Bool :=
  c.isAlpha ∨ c = '_' ∨ (127 ≤ c.toNat ∧ c.toNat ≤ 255)

/-- `re.search(r'\$[a-zA-Z_\x7f-\xff][a-zA-Z0-9_\x7f-\xff]*', path)` as a
Boolean.  The trailing `*` can match the empty string, so a match exists
exactly when some `$` is immediately followed by an identifier-start
character. -/
def hasDollarInterp : Str → Bool
  | c :: d :: rest => (c = '$' ∧ identStart d) || hasDollarInterp (d :: rest)
  | _ => false

/-- `is_dynamic`: the path contains one of the literal indicators
`${`, `}`, `+`, `<?php`, `?>` or matches the `$identifier` interpolation
pattern. -/
def is_dynamic (path : Str) : Bool :=
  subStr ['$', '\x7b'] path || subStr ['\x7d'] path || subStr ['+'] path ||
    subStr "<?php".data path || subStr "?>".data path || hasDollarInterp path

/-- The `external_patterns` of `_is_external_dependency` (the `^` anchors
are implicit in `re.match`): `https?://`, `//`, `www\.`, `\w+://`. -/
def external_patterns : List RE :=
  [ .seq (lits "http".data) (.seq (opt (.lit 's')) (lits "://".data)),
    lits "//".data,
    .seq (lits "www".data) (.lit '.'),
    .seq (plus (.cls wordChar)) (lits "://".data) ]

/-- `_is_external_dependency`: some external pattern matches at the start
of the path (`re.match`, case-insensitive). -/
def is_external_dependency (path : Str) : Bool :=
  external_patterns.any fun r => matchesAt r path

/-- `is_image_file`: the lowercased path ends with one of the image
extensions. -/
def is_image_file (file_path : Str) : Bool :=
  [".jpg", ".jpeg", ".png", ".gif", ".bmp", ".svg", ".webp"].any fun ext =>
    endsWith ext.data (lowerStr file_path)

/-- `_extract_dependencies(content, patterns)`: for every pattern in
order, every `re.findall` match whose capture is not recognized as an
external dependency is appended.  (Each pattern has exactly one capturing
group, so `re.findall` yields plain strings and the `isinstance(match,
tuple)` branch never fires.) -/
def extract_dependencies_core (content : Str) (patterns : List RE) : List Str :=
  patterns.foldl
    (fun acc pattern =>
      acc ++ (findAll pattern content).filter fun dep => ¬ is_external_dependency dep)
    []

/-- All raw references the patterns detect in `content`, before the
external-dependency filter — the "detected references" of the
specification. -/
def detected_references (content : Str) (patterns : List RE) : List Str :=
  patterns.foldl (fun acc pattern => acc ++ findAll pattern content) []

/-- `extract_dependencies(file_path)`: read the file, select the pattern
set by extension, extract, and finally drop every dynamic dependency.
An `IOError` is caught (yielding no dependencies); a
`UnicodeDecodeError` is *not* caught by `except IOError` and
propagates, modelled by the `Except.error` result. -/
def extract_dependencies (fs : Fs) (file_path : Str) : Except Str (List Str) :=
  match fs file_path with
  | .decodeError => .error file_path
  | .ioError => .ok []
  | .ok content =>
    let dependencies :=
      if endsWith ".php".data file_path then extract_dependencies_core content php_patterns
      else if endsWith ".js".data file_path then extract_dependencies_core content js_patterns
      else if endsWith ".html".data file_path ∨ endsWith ".htm".data file_path then
        extract_dependencies_core content html_patterns
      else if endsWith ".css".data file_path then extract_dependencies_core content css_patterns
      else []
    .ok (dependencies.filter fun dep => ¬ is_dynamic dep)

/-- The canonicalization `_analyze_file` applies to a raw dependency
(lines 32–36): absolute paths are normalized directly, relative ones are
joined under `root_dir` first, and the result is normalized once more. -/
def canonical_dep (root_dir dep : Str) : Str :=
  let full := if isabs dep then normpath dep else normpath (joinP root_dir dep)
  normpath full

/-- The body of the `for dep in dependencies` loop of `_analyze_file`,
parameterized by the recursive call `recur` made on an in-project target.
On POSIX `os.path.sep` is `'/'`, so the `.replace(os.path.sep, '/')`
calls are the identity and are omitted. -/
def depStep (cfg : Config) (recur : Str → AState → Except Str AState) (file : Str)
    (acc : Except Str AState) (dep : Str) : Except Str AState :=
  match acc with
  | .error e => .error e
  | .ok st =>
    if is_dynamic dep ∧ cfg.handle_dynamic then .ok st
    else
      let full_dep_path := canonical_dep cfg.root_dir dep
      if cfg.exclude_images ∧ is_image_file full_dep_path then .ok st
      else
        let rel_file := relpath cfg.cwd file cfg.root_dir
        let rel_dep_path := relpath cfg.cwd full_dep_path cfg.root_dir
        let full_file_path := joinP cfg.root_dir rel_file
        let full_dep_path2 := joinP cfg.root_dir rel_dep_path
        let st2 : AState :=
          { st with edge_list := st.edge_list ++ [(full_file_path, full_dep_path2, cfg.root_dir)] }
        if full_dep_path2 ∈ cfg.files then recur full_dep_path2 st2 else .ok st2

/-- `_analyze_file(file, edge_list)`, with fuel making the recursion
structural: return unchanged if the file was already analyzed, otherwise
mark it, extract its dependencies and run the dependency loop, recursing
(with one unit of fuel less) into every resolved in-project target. -/
def analyze_file (cfg : Config) (fs : Fs) : Nat → Str → AState → Except Str AState
  | 0, _, st => .ok st
  | fuel + 1, file, st =>
    if file ∈ st.analyzed_files then .ok st
    else
      let st1 : AState :=
        { st with analyzed_files := file :: st.analyzed_files,
                  extracted_log := st.extracted_log ++ [file] }
      match extract_dependencies fs file with
      | .error e => .error e
      | .ok dependencies =>
        dependencies.foldl
          (depStep cfg (fun t s => analyze_file cfg fs fuel t s) file) (.ok st1)

/-- The root loop of `analyze_dependencies`, explicit in the fuel handed
to each root call. -/
def runRoots (cfg : Config) (fs : Fs) (fuel : Nat) : Except Str AState :=
  cfg.files.foldl
    (fun acc file =>
      match acc with
      | .error e => .error e
      | .ok st => analyze_file cfg fs fuel file st)
    (.ok AState.init)

/-- `analyze_dependencies()`: run every candidate file as a root call and
return the accumulated edge list.  The fuel `files.length + 1` exceeds
the depth any visited-set-guarded recursion can reach (shown by the
fuel-irrelevance theorem for `runRoots`). -/
def analyze_dependencies (cfg : Config) (fs : Fs) : Except Str (List Edge) :=
  match runRoots cfg fs (cfg.files.length + 1) with
  | .error e => .error e
  | .ok st => .ok st.edge_list

end Analyzer

/-!
## Properties of the path model

Lemmas about `splitChar`, `joinSep`, `npStep` and `normpath` leading to
idempotence of `normpath` and to the `./a/../b`-cancellation property of
the canonicalization step.
-/

namespace PyPath

theorem splitChar_ne_nil (sep : Char) (s : Str) : splitChar sep s ≠ [] := by
  cases s with
  | nil => simp [splitChar]
  | cons c cs =>
    by_cases h : c = sep
    · simp [splitChar, h]
    · simp only [splitChar, if_neg h]
      rcases hs : splitChar sep cs with _ | ⟨h', t'⟩ <;> simp

theorem splitChar_append_sep (a b : Str) :
    splitChar '/' (a ++ '/' :: b) = splitChar '/' a ++ splitChar '/' b := by
  induction a with
  | nil => simp [splitChar]
  | cons c cs ih =>
    by_cases h : c = '/'
    · simp [splitChar, h, ih]
    · simp only [List.cons_append, splitChar, if_neg h]
      simp only [List.append_eq]
      rw [ih]
      rcases hs : splitChar '/' cs with _ | ⟨h', t'⟩
      · exact absurd hs (splitChar_ne_nil '/' cs)
      · simp

theorem not_mem_of_mem_splitChar (sep : Char) (s : Str) :
    ∀ c ∈ splitChar sep s, sep ∉ c := by
  induction s with
  | nil =>
    intro c hc
    simp [splitChar] at hc
    simp [hc]
  | cons a as ih =>
    intro c hc
    by_cases h : a = sep
    · simp only [splitChar, if_pos h] at hc
      rcases List.mem_cons.mp hc with hc | hc
      · simp [hc]
      · exact ih c hc
    · simp only [splitChar, if_neg h] at hc
      rcases hs : splitChar sep as with _ | ⟨h', t'⟩
      · exact absurd hs (splitChar_ne_nil sep as)
      · rw [hs] at hc
        rcases List.mem_cons.mp hc with hc | hc
        · subst hc
          intro hmem
          rcases List.mem_cons.mp hmem with h1 | h1
          · exact h h1.symm
          · exact ih h' (hs ▸ List.mem_cons_self h' t') h1
        · exact ih c (hs ▸ List.mem_cons_of_mem h' hc)

theorem splitChar_no_sep {s : Str} (h : '/' ∉ s) : splitChar '/' s = [s] := by
  induction s with
  | nil => simp [splitChar]
  | cons c cs ih =>
    have hc : ¬ c = '/' := fun hh => h (hh ▸ List.mem_cons_self c cs)
    have hcs : '/' ∉ cs := fun hh => h (List.mem_cons_of_mem c hh)
    simp only [splitChar, if_neg hc, ih hcs]

theorem splitChar_joinSep {l : List Str} (hne : l ≠ [])
    (hsep : ∀ c ∈ l, '/' ∉ c) : splitChar '/' (joinSep l) = l := by
  induction l with
  | nil => exact absurd rfl hne
  | cons x xs ih =>
    cases xs with
    | nil => exact splitChar_no_sep (hsep x (List.mem_cons_self x []))
    | cons y ys =>
      have : joinSep (x :: y :: ys) = x ++ '/' :: joinSep (y :: ys) := rfl
      rw [this, splitChar_append_sep,
        splitChar_no_sep (hsep x (List.mem_cons_self x (y :: ys))),
        ih (by simp) (fun c hc => hsep c (List.mem_cons_of_mem x hc))]
      rfl

/-- A generic invariant lemma for `List.foldl`. -/
theorem foldl_invariant {α β : Type} {P : α → Prop} {Q : β → Prop} (f : α → β → α)
    (hf : ∀ a b, P a → Q b → P (f a b)) :
    ∀ (l : List β) (a : α), P a → (∀ b ∈ l, Q b) → P (l.foldl f a) := by
  intro l
  induction l with
  | nil => intro a ha _; exact ha
  | cons b bs ih =>
    intro a ha hq
    exact ih (f a b) (hf a b ha (hq b (List.mem_cons_self b bs)))
      (fun x hx => hq x (List.mem_cons_of_mem b hx))

/-- The invariant maintained by `npStep`: components are nonempty,
distinct from `.`, slash-free, and the `..` components form a prefix
that is empty for absolute paths. -/
def Reduced (ini : Nat) (l : List Str) : Prop :=
  (∀ c ∈ l, c ≠ [] ∧ c ≠ ['.'] ∧ '/' ∉ c) ∧
  ∃ k rest, l = List.replicate k dd ++ rest ∧ dd ∉ rest ∧ (ini ≠ 0 → k = 0)

theorem reduced_nil (ini : Nat) : Reduced ini [] :=
  ⟨by simp, 0, [], by simp, by simp, fun _ => rfl⟩

theorem npStep_reduced {ini : Nat} {acc : List Str} {comp : Str}
    (hacc : Reduced ini acc) (hcomp : '/' ∉ comp) :
    Reduced ini (npStep ini acc comp) := by
  obtain ⟨hall, k, rest, hdec, hnd, hk⟩ := hacc
  unfold npStep
  by_cases h1 : comp = [] ∨ comp = ['.']
  · rw [if_pos h1]; exact ⟨hall, k, rest, hdec, hnd, hk⟩
  · rw [if_neg h1]
    push_neg at h1
    by_cases h2 : comp ≠ dd ∨ (ini = 0 ∧ acc = []) ∨ (acc ≠ [] ∧ acc.getLast? = some dd)
    · rw [if_pos h2]
      constructor
      · intro c hc
        rcases List.mem_append.mp hc with hc | hc
        · exact hall c hc
        · simp only [List.mem_singleton] at hc
          exact hc ▸ ⟨h1.1, h1.2, hcomp⟩
      · by_cases hcd : comp = dd
        · subst hcd
          rcases h2 with h2 | h2 | h2
          · exact absurd rfl h2
          · obtain ⟨hini, hacc0⟩ := h2
            subst hacc0
            exact ⟨1, [], by simp, by simp, fun hh => absurd hini hh⟩
          · obtain ⟨haccne, hlast⟩ := h2
            have hrest : rest = [] := by
              rcases List.eq_nil_or_concat rest with hr | ⟨rl, r0, hr⟩
              · exact hr
              · exfalso
                rw [List.concat_eq_append] at hr
                subst hr
                subst hdec
                rw [← List.append_assoc, List.getLast?_concat] at hlast
                injection hlast with hl
                exact hnd (by simp [← hl])
            subst hrest
            have hini : ini = 0 := by
              by_contra hini
              have hk0 := hk hini
              subst hk0
              simp at hdec
              exact haccne hdec
            refine ⟨k + 1, [], ?_, by simp, fun hh => absurd hini hh⟩
            rw [hdec]
            simp [List.replicate_succ']
        · refine ⟨k, rest ++ [comp], by rw [hdec]; simp, ?_, hk⟩
          intro hmem
          rcases List.mem_append.mp hmem with hm | hm
          · exact hnd hm
          · simp only [List.mem_singleton] at hm
            exact hcd hm.symm
    · rw [if_neg h2]
      refine ⟨fun c hc => hall c (List.dropLast_sublist acc |>.subset hc), ?_⟩
      rcases List.eq_nil_or_concat rest with hr | ⟨rl, r0, hr⟩
      · subst hr
        simp only [List.append_nil] at hdec
        subst hdec
        cases k with
        | zero => exact ⟨0, [], by simp, by simp, fun _ => rfl⟩
        | succ k' =>
          refine ⟨k', [], ?_, by simp, fun hh => by have hk0 := hk hh; omega⟩
          rw [List.replicate_succ', List.dropLast_concat]
          simp
      · rw [List.concat_eq_append] at hr
        subst hr
        subst hdec
        refine ⟨k, rl, ?_, fun hm => hnd (List.mem_append_left _ hm), hk⟩
        rw [← List.append_assoc, List.dropLast_concat]

/-- Everything on the stack before an occurrence of `..` in a reduced
decomposition lies inside the `..`-replicate part: the stack is all `..`
and shorter than the replicate. -/
theorem acc_all_dd {k : Nat} {rest : List Str} :
    ∀ (acc l' : List Str), acc ++ dd :: l' = List.replicate k dd ++ rest →
      dd ∉ rest → (∀ c ∈ acc, c = dd) ∧ acc.length < k := by
  induction k with
  | zero =>
    intro acc l' hdec hnd
    exfalso
    simp only [List.replicate_zero, List.nil_append] at hdec
    exact hnd (by rw [← hdec]; simp)
  | succ k' ih =>
    intro acc l' hdec hnd
    cases acc with
    | nil => exact ⟨by simp, by simp⟩
    | cons a acc' =>
      rw [List.replicate_succ] at hdec
      simp only [List.cons_append] at hdec
      injection hdec with h1 h2
      obtain ⟨hall, hlen⟩ := ih acc' l' h2 hnd
      refine ⟨?_, by simp only [List.length_cons]; omega⟩
      intro c hc
      rcases List.mem_cons.mp hc with hc | hc
      · exact hc.trans h1
      · exact hall c hc

/-- Replaying an already-reduced component list through the `normpath`
fold leaves it unchanged. -/
theorem foldl_npStep_replay {ini : Nat} :
    ∀ (l acc : List Str) (k : Nat) (rest : List Str),
      acc ++ l = List.replicate k dd ++ rest → dd ∉ rest → (ini ≠ 0 → k = 0) →
      (∀ c ∈ l, c ≠ [] ∧ c ≠ ['.']) →
      List.foldl (npStep ini) acc l = acc ++ l := by
  intro l
  induction l with
  | nil => intro acc _ _ _ _ _ _; simp
  | cons c l' ih =>
    intro acc k rest hdec hnd hk hall
    obtain ⟨hc1, hc2⟩ := hall c (List.mem_cons_self c l')
    have hstep : npStep ini acc c = acc ++ [c] := by
      unfold npStep
      rw [if_neg (by push_neg; exact ⟨hc1, hc2⟩)]
      by_cases hcd : c = dd
      · subst hcd
        obtain ⟨haccall, hlen⟩ := acc_all_dd acc l' hdec hnd
        have hini : ini = 0 := by
          by_contra hini
          have hk0 := hk hini
          omega
        have hcond : dd ≠ dd ∨ (ini = 0 ∧ acc = []) ∨
            (acc ≠ [] ∧ acc.getLast? = some dd) := by
          rcases List.eq_nil_or_concat acc with ha | ⟨al, a0, ha⟩
          · exact Or.inr (Or.inl ⟨hini, ha⟩)
          · rw [List.concat_eq_append] at ha
            refine Or.inr (Or.inr ⟨by subst ha; simp, ?_⟩)
            subst ha
            rw [List.getLast?_concat]
            exact congrArg some (haccall a0 (by simp))
        rw [if_pos hcond]
      · rw [if_pos (Or.inl hcd)]
    rw [List.foldl_cons, hstep]
    have hdec2 : (acc ++ [c]) ++ l' = List.replicate k dd ++ rest := by
      rw [List.append_assoc]
      simpa using hdec
    rw [ih (acc ++ [c]) k rest hdec2 hnd hk
      (fun x hx => hall x (List.mem_cons_of_mem c hx))]
    simp

theorem npStep_nil (ini : Nat) (acc : List Str) : npStep ini acc [] = acc := by
  simp [npStep]

theorem foldl_npStep_replicate_nil (ini n : Nat) (acc : List Str) :
    List.foldl (npStep ini) acc (List.replicate n ([] : Str)) = acc := by
  induction n with
  | zero => rfl
  | succ m ih => rw [List.replicate_succ, List.foldl_cons, npStep_nil]; exact ih

theorem reduced_comps (ini : Nat) (p : Str) :
    Reduced ini ((splitChar '/' p).foldl (npStep ini) []) :=
  foldl_invariant (npStep ini) (fun _ _ hacc hc => npStep_reduced hacc hc)
    (splitChar '/' p) [] (reduced_nil ini) (not_mem_of_mem_splitChar '/' p)

theorem initialSlashes_cases (p : Str) :
    initialSlashes p = 0 ∨ initialSlashes p = 1 ∨ initialSlashes p = 2 := by
  unfold initialSlashes
  split_ifs <;> simp

theorem initialSlashes_of_head_ne {s : Str} (h : s.head? ≠ some '/') :
    initialSlashes s = 0 := by
  cases s with
  | nil => simp [initialSlashes, List.isPrefixOf]
  | cons c cs =>
    have hc : ¬ c = '/' := by simpa [eq_comm] using h
    have hc2 : ¬ '/' = c := fun hh => hc hh.symm
    simp [initialSlashes, List.isPrefixOf, hc, hc2]

theorem initialSlashes_one {t : Str} (h : t.head? ≠ some '/') :
    initialSlashes ('/' :: t) = 1 := by
  cases t with
  | nil => simp [initialSlashes, List.isPrefixOf]
  | cons c cs =>
    have hc : ¬ c = '/' := by simpa [eq_comm] using h
    have hc2 : ¬ '/' = c := fun hh => hc hh.symm
    simp [initialSlashes, List.isPrefixOf, hc, hc2]

theorem initialSlashes_two {t : Str} (h : t.head? ≠ some '/') :
    initialSlashes ('/' :: '/' :: t) = 2 := by
  cases t with
  | nil => simp [initialSlashes, List.isPrefixOf]
  | cons c cs =>
    have hc : ¬ c = '/' := by simpa [eq_comm] using h
    have hc2 : ¬ '/' = c := fun hh => hc hh.symm
    simp [initialSlashes, List.isPrefixOf, hc, hc2]

theorem joinSep_head {c : Str} (rest : List Str) (hc : c ≠ []) :
    (joinSep (c :: rest)).head? = c.head? := by
  cases rest with
  | nil => rfl
  | cons y ys =>
    show (c ++ '/' :: joinSep (y :: ys)).head? = c.head?
    cases c with
    | nil => exact absurd rfl hc
    | cons a as => rfl

theorem splitChar_cons_sep (x : Str) : splitChar '/' ('/' :: x) = [] :: splitChar '/' x := by
  simp [splitChar]

/-- `normpath` is the identity on recombinations of a reduced component
list: the core of idempotence. -/
theorem normpath_reduced_fixed {ini : Nat} {nc : List Str}
    (hini : ini = 0 ∨ ini = 1 ∨ ini = 2)
    (hred : Reduced ini nc)
    (hne : List.replicate ini '/' ++ joinSep nc ≠ []) :
    normpath (List.replicate ini '/' ++ joinSep nc) =
      List.replicate ini '/' ++ joinSep nc := by
  obtain ⟨hall, k, rest, hdec, hnd, hk⟩ := hred
  cases nc with
  | nil =>
    rcases hini with h0 | h1 | h2
    · subst h0; exact absurd rfl hne
    · subst h1; decide
    · subst h2; decide
  | cons c nc' =>
    have hcmem := hall c (List.mem_cons_self c nc')
    have hchead : c.head? ≠ some '/' := by
      cases c with
      | nil => exact absurd rfl hcmem.1
      | cons a as =>
        have : a ≠ '/' := fun hh => hcmem.2.2 (hh ▸ List.mem_cons_self a as)
        simp only [List.head?_cons, ne_eq, Option.some.injEq]
        exact this
    have hjhead : (joinSep (c :: nc')).head? ≠ some '/' := by
      rw [joinSep_head nc' hcmem.1]; exact hchead
    have hini2 : initialSlashes (List.replicate ini '/' ++ joinSep (c :: nc')) = ini := by
      rcases hini with h | h | h <;> subst h
      · simpa using initialSlashes_of_head_ne hjhead
      · simpa using initialSlashes_one hjhead
      · simpa using initialSlashes_two hjhead
    have hsplit : splitChar '/' (List.replicate ini '/' ++ joinSep (c :: nc')) =
        List.replicate ini ([] : Str) ++ (c :: nc') := by
      have hbase : splitChar '/' (joinSep (c :: nc')) = c :: nc' :=
        splitChar_joinSep (by simp) (fun x hx => (hall x hx).2.2)
      rcases hini with h | h | h <;> subst h
      · simpa using hbase
      · simp only [List.replicate_succ, List.replicate_zero, List.nil_append,
          List.cons_append, splitChar_cons_sep, hbase]
      · simp only [List.replicate_succ, List.replicate_zero, List.nil_append,
          List.cons_append, splitChar_cons_sep, hbase]
    have hfold : ((splitChar '/' (List.replicate ini '/' ++ joinSep (c :: nc'))).foldl
        (npStep ini) []) = c :: nc' := by
      rw [hsplit, List.foldl_append, foldl_npStep_replicate_nil]
      exact foldl_npStep_replay (c :: nc') [] k rest (by simpa using hdec) hnd hk
        (fun x hx => ⟨(hall x hx).1, (hall x hx).2.1⟩)
    have hgoal : normpath (List.replicate ini '/' ++ joinSep (c :: nc')) =
        if List.replicate ini '/' ++ joinSep (c :: nc') = [] then ['.']
        else List.replicate ini '/' ++ joinSep (c :: nc') := by
      simp only [normpath, if_neg hne, hini2, hfold]
    rw [hgoal, if_neg hne]

/-- `posixpath.normpath` is idempotent. -/
theorem normpath_idem (p : Str) : normpath (normpath p) = normpath p := by
  by_cases hp : p = []
  · subst hp; decide
  · have hform : normpath p =
        if List.replicate (initialSlashes p) '/' ++
            joinSep ((splitChar '/' p).foldl (npStep (initialSlashes p)) []) = [] then ['.']
        else List.replicate (initialSlashes p) '/' ++
            joinSep ((splitChar '/' p).foldl (npStep (initialSlashes p)) []) := by
      simp only [normpath, if_neg hp]
    by_cases hj : List.replicate (initialSlashes p) '/' ++
        joinSep ((splitChar '/' p).foldl (npStep (initialSlashes p)) []) = []
    · rw [hform, if_pos hj]; decide
    · rw [hform, if_neg hj]
      exact normpath_reduced_fixed (initialSlashes_cases p) (reduced_comps _ p) hj

theorem isPrefixOf_slash_eq_false {x : Str} (hx : x.head? ≠ some '/') :
    (['/'] : Str).isPrefixOf x = false := by
  cases x with
  | nil => rfl
  | cons x0 xs =>
    have hx0 : ¬ '/' = x0 := by
      intro hh
      exact hx (by simp [← hh])
    simp [List.isPrefixOf, hx0]

/-- `initialSlashes` of `R ++ '/' :: x` does not depend on `x` as long as
`x` does not begin with a slash. -/
theorem initialSlashes_append_sep_congr (R x y : Str) (hR : R ≠ [])
    (hx : x.head? ≠ some '/') (hy : y.head? ≠ some '/') :
    initialSlashes (R ++ '/' :: x) = initialSlashes (R ++ '/' :: y) := by
  match R with
  | [] => exact absurd rfl hR
  | [c1] =>
    simp [initialSlashes, List.isPrefixOf, isPrefixOf_slash_eq_false hx,
      isPrefixOf_slash_eq_false hy]
  | [c1, c2] =>
    simp [initialSlashes, List.isPrefixOf]
  | c1 :: c2 :: c3 :: rest =>
    simp [initialSlashes, List.isPrefixOf]

/-- The components `.`, `a`, `..` cancel against any stack, for any
number of initial slashes. -/
theorem foldl_cancel_dot_a_dd (ini : Nat) (acc : List Str) (l : List Str) :
    List.foldl (npStep ini) acc ([['.'], ['a'], dd] ++ l) =
      List.foldl (npStep ini) acc l := by
  have h1 : npStep ini acc ['.'] = acc := by simp [npStep]
  have h2 : npStep ini acc ['a'] = acc ++ [['a']] := by
    unfold npStep
    rw [if_neg (by simp), if_pos (Or.inl (by decide))]
  have h3 : npStep ini (acc ++ [['a']]) dd = acc := by
    unfold npStep
    have c1 : ¬ (dd = [] ∨ dd = ['.']) := by decide
    rw [if_neg c1]
    have c2 : ¬ (dd ≠ dd ∨ (ini = 0 ∧ acc ++ [['a']] = []) ∨
        (acc ++ [['a']] ≠ [] ∧ (acc ++ [['a']]).getLast? = some dd)) := by
      refine not_or.mpr ⟨by simp, not_or.mpr ⟨by simp, ?_⟩⟩
      intro hand
      rw [List.getLast?_concat] at hand
      have := hand.2
      injection this with hll
      exact absurd hll (by decide)
    rw [if_neg c2, List.dropLast_concat]
  simp only [List.cons_append, List.nil_append, List.foldl_cons, h1, h2, h3]

/-- Core of the cancellation property: under any prefix directory, the
reference `./a/../b/x.js` normalizes to the same path as `b/x.js`. -/
theorem normpath_sep_core (R0 : Str) :
    normpath (R0 ++ '/' :: "./a/../b/x.js".data) =
      normpath (R0 ++ '/' :: "b/x.js".data) := by
  have hd1 : splitChar '/' "./a/../b/x.js".data =
      [['.'], ['a'], dd] ++ [['b'], "x.js".data] := by decide
  have hd2 : splitChar '/' "b/x.js".data = [['b'], "x.js".data] := by decide
  have hne1 : R0 ++ '/' :: "./a/../b/x.js".data ≠ [] := by simp
  have hne2 : R0 ++ '/' :: "b/x.js".data ≠ [] := by simp
  have hini : initialSlashes (R0 ++ '/' :: "./a/../b/x.js".data) =
      initialSlashes (R0 ++ '/' :: "b/x.js".data) := by
    cases R0 with
    | nil =>
      simp only [List.nil_append]
      rw [initialSlashes_one (by decide), initialSlashes_one (by decide)]
    | cons r rs =>
      exact initialSlashes_append_sep_congr (r :: rs) _ _ (by simp)
        (by decide) (by decide)
  have hfold : ∀ ini : Nat,
      (splitChar '/' (R0 ++ '/' :: "./a/../b/x.js".data)).foldl (npStep ini) [] =
        (splitChar '/' (R0 ++ '/' :: "b/x.js".data)).foldl (npStep ini) [] := by
    intro ini
    rw [splitChar_append_sep, splitChar_append_sep, hd1, hd2,
      List.foldl_append, List.foldl_append, List.foldl_append]
    congr 1
    have hc := foldl_cancel_dot_a_dd ini
      (List.foldl (npStep ini) [] (splitChar '/' R0)) []
    simpa using hc
  have hl : normpath (R0 ++ '/' :: "./a/../b/x.js".data) =
      if List.replicate (initialSlashes (R0 ++ '/' :: "b/x.js".data)) '/' ++
          joinSep ((splitChar '/' (R0 ++ '/' :: "b/x.js".data)).foldl
            (npStep (initialSlashes (R0 ++ '/' :: "b/x.js".data))) []) = [] then ['.']
      else List.replicate (initialSlashes (R0 ++ '/' :: "b/x.js".data)) '/' ++
          joinSep ((splitChar '/' (R0 ++ '/' :: "b/x.js".data)).foldl
            (npStep (initialSlashes (R0 ++ '/' :: "b/x.js".data))) []) := by
    simp only [normpath, if_neg hne1, hini, hfold]
  rw [hl]
  simp only [normpath, if_neg hne2]

/-- Resolving `./a/../b/x.js` under any root joins and normalizes to the
same path as resolving `b/x.js`. -/
theorem normpath_join_cancel (R : Str) :
    normpath (joinP R "./a/../b/x.js".data) = normpath (joinP R "b/x.js".data) := by
  by_cases hR0 : R = []
  · subst hR0; decide
  · by_cases hRl : R.getLast? = some '/'
    · have hjoin1 : joinP R "./a/../b/x.js".data = R ++ "./a/../b/x.js".data := by
        unfold joinP
        rw [if_neg (by decide), if_pos (Or.inr hRl)]
      have hjoin2 : joinP R "b/x.js".data = R ++ "b/x.js".data := by
        unfold joinP
        rw [if_neg (by decide), if_pos (Or.inr hRl)]
      have hlast := List.getLast?_eq_getLast R hR0
      rw [hRl] at hlast
      injection hlast with hlast
      have hR2 : R = R.dropLast ++ ['/'] := by
        conv_lhs => rw [← List.dropLast_append_getLast hR0]
        rw [← hlast]
      rw [hjoin1, hjoin2, hR2, List.append_assoc, List.append_assoc]
      simp only [List.singleton_append]
      exact normpath_sep_core R.dropLast
    · have hjoin1 : joinP R "./a/../b/x.js".data = R ++ '/' :: "./a/../b/x.js".data := by
        unfold joinP
        rw [if_neg (by decide), if_neg (by push_neg; exact ⟨hR0, hRl⟩)]
      have hjoin2 : joinP R "b/x.js".data = R ++ '/' :: "b/x.js".data := by
        unfold joinP
        rw [if_neg (by decide), if_neg (by push_neg; exact ⟨hR0, hRl⟩)]
      rw [hjoin1, hjoin2]
      exact normpath_sep_core R

end PyPath

/-!
## Properties of the analyzer
-/

namespace Analyzer

open PyStr PyPath PyRe

/-- Everything `_extract_dependencies` returns passed the external
filter. -/
theorem extract_core_not_external (content : Str) (patterns : List RE) :
    ∀ d ∈ extract_dependencies_core content patterns, is_external_dependency d = false := by
  unfold extract_dependencies_core
  suffices h : ∀ (acc : List Str), (∀ d ∈ acc, is_external_dependency d = false) →
      ∀ d ∈ patterns.foldl
        (fun acc pattern =>
          acc ++ (findAll pattern content).filter fun dep => ¬ is_external_dependency dep)
        acc, is_external_dependency d = false by
    exact h [] (by simp)
  induction patterns with
  | nil => intro acc hacc d hd; exact hacc d hd
  | cons p ps ih =>
    intro acc hacc d hd
    refine ih _ ?_ d hd
    intro x hx
    rcases List.mem_append.mp hx with hx | hx
    · exact hacc x hx
    · have := List.of_mem_filter hx
      simpa using this

/-- Everything `extract_dependencies` returns is non-dynamic: the final
list comprehension filters out every dynamic dependency. -/
theorem extract_not_dynamic {fs : Fs} {file_path : Str} {deps : List Str}
    (h : extract_dependencies fs file_path = .ok deps) :
    ∀ d ∈ deps, is_dynamic d = false := by
  unfold extract_dependencies at h
  cases hread : fs file_path with
  | decodeError => rw [hread] at h; exact absurd h (by simp)
  | ioError =>
    rw [hread] at h
    injection h with h
    subst h
    simp
  | ok content =>
    rw [hread] at h
    injection h with h
    subst h
    intro d hd
    have := List.of_mem_filter hd
    simpa using this

/-- Everything `extract_dependencies` returns is non-external. -/
theorem extract_not_external {fs : Fs} {file_path : Str} {deps : List Str}
    (h : extract_dependencies fs file_path = .ok deps) :
    ∀ d ∈ deps, is_external_dependency d = false := by
  unfold extract_dependencies at h
  cases hread : fs file_path with
  | decodeError => rw [hread] at h; exact absurd h (by simp)
  | ioError =>
    rw [hread] at h
    injection h with h
    subst h
    simp
  | ok content =>
    rw [hread] at h
    injection h with h
    subst h
    intro d hd
    have hd' := List.mem_of_mem_filter hd
    split_ifs at hd' with h1 h2 h3 h4
    · exact extract_core_not_external content php_patterns d hd'
    · exact extract_core_not_external content js_patterns d hd'
    · exact extract_core_not_external content html_patterns d hd'
    · exact extract_core_not_external content css_patterns d hd'
    · simp at hd'

/-- Folding the dependency loop over an error propagates the error. -/
theorem foldl_depStep_error (cfg : Config) (recur : Str → AState → Except Str AState)
    (file : Str) (e : Str) :
    ∀ ds : List Str, ds.foldl (depStep cfg recur file) (.error e) = .error e := by
  intro ds
  induction ds with
  | nil => rfl
  | cons d ds ih => rw [List.foldl_cons]; exact ih

/-- One pass of the dependency loop preserves any property of the state
that survives appending an edge and is preserved by the recursive call. -/
theorem depStep_pres (cfg : Config) (recur : Str → AState → Except Str AState)
    (file : Str) (P : AState → Prop)
    (hPedge : ∀ st e, P st → P { st with edge_list := st.edge_list ++ [e] })
    (hrec : ∀ t s r, recur t s = .ok r → P s → P r)
    {st st1 : AState} {d : Str}
    (h : depStep cfg recur file (.ok st) d = .ok st1) (hp : P st) : P st1 := by
  simp only [depStep] at h
  split_ifs at h with h1 h2 h3
  · injection h with h; exact h ▸ hp
  · injection h with h; exact h ▸ hp
  · exact hrec _ _ _ h (hPedge st _ hp)
  · injection h with h; exact h ▸ hPedge st _ hp

/-- The dependency loop preserves such properties along a whole list. -/
theorem foldl_depStep_pres (cfg : Config) (recur : Str → AState → Except Str AState)
    (file : Str) (P : AState → Prop)
    (hPedge : ∀ st e, P st → P { st with edge_list := st.edge_list ++ [e] })
    (hrec : ∀ t s r, recur t s = .ok r → P s → P r) :
    ∀ (ds : List Str) (st st' : AState),
      ds.foldl (depStep cfg recur file) (.ok st) = .ok st' → P st → P st' := by
  intro ds
  induction ds with
  | nil =>
    intro st st' h hp
    injection h with h
    exact h ▸ hp
  | cons d ds ih =>
    intro st st' h hp
    rw [List.foldl_cons] at h
    cases hd : depStep cfg recur file (.ok st) d with
    | error e =>
      rw [hd, foldl_depStep_error] at h
      exact absurd h (by simp)
    | ok st1 =>
      rw [hd] at h
      exact ih st1 st' h (depStep_pres cfg recur file P hPedge hrec hd hp)

/-- `_analyze_file` preserves any property of the state that survives
appending an edge and marking a fresh file as analyzed. -/
theorem analyze_file_pres (cfg : Config) (fs : Fs) (P : AState → Prop)
    (hPedge : ∀ st e, P st → P { st with edge_list := st.edge_list ++ [e] })
    (hPmark : ∀ st f, f ∉ st.analyzed_files → P st →
      P { st with analyzed_files := f :: st.analyzed_files,
                  extracted_log := st.extracted_log ++ [f] }) :
    ∀ (fuel : Nat) (file : Str) (st st' : AState),
      analyze_file cfg fs fuel file st = .ok st' → P st → P st' := by
  intro fuel
  induction fuel with
  | zero =>
    intro file st st' h hp
    injection h with h
    exact h ▸ hp
  | succ f ih =>
    intro file st st' h hp
    rw [show analyze_file cfg fs (f + 1) file st =
      if file ∈ st.analyzed_files then .ok st
      else
        match extract_dependencies fs file with
        | .error e => .error e
        | .ok dependencies =>
          dependencies.foldl
            (depStep cfg (fun t s => analyze_file cfg fs f t s) file)
            (.ok { st with analyzed_files := file :: st.analyzed_files,
                           extracted_log := st.extracted_log ++ [file] }) from rfl] at h
    by_cases hm : file ∈ st.analyzed_files
    · rw [if_pos hm] at h
      injection h with h
      exact h ▸ hp
    · rw [if_neg hm] at h
      cases hx : extract_dependencies fs file with
      | error e =>
        rw [hx] at h
        exact absurd h (by simp)
      | ok deps =>
        rw [hx] at h
        exact foldl_depStep_pres cfg _ file P hPedge
          (fun t s r hr hps => ih t s r hr hps) deps _ st' h
          (hPmark st file hm hp)

/-- `_analyze_file` only ever grows the visited set. -/
theorem analyze_file_mono (cfg : Config) (fs : Fs) {fuel : Nat} {file : Str}
    {st st' : AState} (h : analyze_file cfg fs fuel file st = .ok st') :
    st.analyzed_files ⊆ st'.analyzed_files :=
  analyze_file_pres cfg fs (fun r => st.analyzed_files ⊆ r.analyzed_files)
    (fun _ _ hsub => hsub)
    (fun s f _ hsub => hsub.trans (by intro x hx; exact List.mem_cons_of_mem f hx))
    fuel file st st' h (fun _ hx => hx)

/-- The number of candidate files not yet visited: the measure that
bounds the recursion depth of `_analyze_file`. -/
def unvisitedCount (cfg : Config) (st : AState) : Nat :=
  (cfg.files.filter fun f => f ∉ st.analyzed_files).length

/-- The fuel needed for `analyze_file` on a given file and state to have
reached its fixpoint. -/
def needA (cfg : Config) (file : Str) (st : AState) : Nat :=
  if file ∈ st.analyzed_files then 0
  else if file ∈ cfg.files then unvisitedCount cfg st
  else unvisitedCount cfg st + 1

theorem length_filter_le_of_imp {α : Type} (l : List α) (p q : α → Bool)
    (h : ∀ a ∈ l, p a = true → q a = true) :
    (l.filter p).length ≤ (l.filter q).length := by
  induction l with
  | nil => simp
  | cons a l ih =>
    have ih' := ih fun x hx hp => h x (List.mem_cons_of_mem a hx) hp
    by_cases hp : p a = true
    · rw [List.filter_cons_of_pos hp, List.filter_cons_of_pos (h a (by simp) hp)]
      simpa using ih'
    · rw [List.filter_cons_of_neg (by simpa using hp)]
      by_cases hq : q a = true
      · rw [List.filter_cons_of_pos hq]
        exact le_trans ih' (by simp)
      · rw [List.filter_cons_of_neg (by simpa using hq)]
        exact ih'

theorem length_filter_lt_of_imp {α : Type} [DecidableEq α] (l : List α) (p q : α → Bool)
    (h : ∀ a ∈ l, p a = true → q a = true) (a : α) (ha : a ∈ l)
    (hqa : q a = true) (hpa : p a = false) :
    (l.filter p).length < (l.filter q).length := by
  induction l with
  | nil => simp at ha
  | cons b l ih =>
    have himp := fun x hx hp => h x (List.mem_cons_of_mem b hx) hp
    rcases List.mem_cons.mp ha with hab | ha'
    · subst hab
      rw [List.filter_cons_of_neg (by simp [hpa]), List.filter_cons_of_pos hqa]
      exact Nat.lt_succ_of_le (length_filter_le_of_imp l p q himp)
    · have ih' := ih himp ha'
      by_cases hp : p b = true
      · rw [List.filter_cons_of_pos hp, List.filter_cons_of_pos (h b (by simp) hp)]
        simpa using ih'
      · rw [List.filter_cons_of_neg (by simpa using hp)]
        by_cases hq : q b = true
        · rw [List.filter_cons_of_pos hq]
          exact Nat.lt_succ_of_le (Nat.le_of_lt ih')
        · rw [List.filter_cons_of_neg (by simpa using hq)]
          exact ih'

/-- Growing the visited set never increases the unvisited count. -/
theorem unvisited_mono {cfg : Config} {st st' : AState}
    (h : st.analyzed_files ⊆ st'.analyzed_files) :
    unvisitedCount cfg st' ≤ unvisitedCount cfg st := by
  refine length_filter_le_of_imp cfg.files _ _ ?_
  intro a _ hp
  simp only [decide_eq_true_eq] at hp ⊢
  exact fun hmem => hp (h hmem)

/-- Marking an unvisited candidate file strictly decreases the unvisited
count. -/
theorem unvisited_mark_lt {cfg : Config} {st : AState} {file : Str}
    (hf : file ∈ cfg.files) (hm : file ∉ st.analyzed_files) :
    unvisitedCount cfg
      { st with analyzed_files := file :: st.analyzed_files,
                extracted_log := st.extracted_log ++ [file] } <
      unvisitedCount cfg st := by
  refine length_filter_lt_of_imp cfg.files _ _ ?_ file hf (by simpa using hm) (by simp)
  intro a _ hp
  simp only [decide_eq_true_eq, List.mem_cons] at hp ⊢
  exact fun hmem => hp (Or.inr hmem)

/-- Marking a file that is not a candidate leaves the unvisited count
unchanged. -/
theorem unvisited_mark_eq {cfg : Config} {st : AState} {file : Str}
    (hf : file ∉ cfg.files) :
    unvisitedCount cfg
      { st with analyzed_files := file :: st.analyzed_files,
                extracted_log := st.extracted_log ++ [file] } =
      unvisitedCount cfg st := by
  unfold unvisitedCount
  congr 1
  refine List.filter_congr ?_
  intro a ha
  simp only [List.mem_cons, decide_eq_decide]
  constructor
  · intro hnot hmem
    exact hnot (Or.inr hmem)
  · intro hnot hor
    rcases hor with h1 | h1
    · exact hf (h1 ▸ ha)
    · exact hnot h1

theorem unvisitedCount_le_length (cfg : Config) (st : AState) :
    unvisitedCount cfg st ≤ cfg.files.length :=
  List.length_filter_le _ _

theorem needA_le_length {cfg : Config} {st : AState} {file : Str}
    (hf : file ∈ cfg.files) : needA cfg file st ≤ cfg.files.length := by
  unfold needA
  split_ifs with h1
  · exact Nat.zero_le _
  · exact unvisitedCount_le_length cfg st

/-- Unfolding equation for `analyze_file` at a positive fuel. -/
theorem analyze_file_succ (cfg : Config) (fs : Fs) (f : Nat) (file : Str) (st : AState) :
    analyze_file cfg fs (f + 1) file st =
      if file ∈ st.analyzed_files then .ok st
      else
        match extract_dependencies fs file with
        | .error e => .error e
        | .ok dependencies =>
          dependencies.foldl
            (depStep cfg (fun t s => analyze_file cfg fs f t s) file)
            (.ok { st with analyzed_files := file :: st.analyzed_files,
                           extracted_log := st.extracted_log ++ [file] }) := rfl

/-- On an already-visited file, `_analyze_file` returns the state
unchanged at every fuel. -/
theorem analyze_file_visited (cfg : Config) (fs : Fs) (fuel : Nat) {file : Str}
    {st : AState} (hm : file ∈ st.analyzed_files) :
    analyze_file cfg fs fuel file st = .ok st := by
  cases fuel with
  | zero => rfl
  | succ f => rw [analyze_file_succ, if_pos hm]

/-- Once the fuel covers the unvisited count, one more unit of fuel does
not change the result of `_analyze_file`: the recursion has reached its
visited-set-guarded fixpoint. -/
theorem analyze_file_fuel_step (cfg : Config) (fs : Fs) :
    ∀ (k : Nat) (file : Str) (st : AState), needA cfg file st ≤ k →
      analyze_file cfg fs k file st = analyze_file cfg fs (k + 1) file st := by
  intro k
  induction k with
  | zero =>
    intro file st h
    by_cases hm : file ∈ st.analyzed_files
    · rw [analyze_file_visited cfg fs 0 hm, analyze_file_visited cfg fs 1 hm]
    · exfalso
      unfold needA at h
      rw [if_neg hm] at h
      by_cases hf : file ∈ cfg.files
      · rw [if_pos hf] at h
        have : file ∈ cfg.files.filter fun f => f ∉ st.analyzed_files :=
          List.mem_filter.mpr ⟨hf, by simpa using hm⟩
        have hlen : 0 < unvisitedCount cfg st := by
          unfold unvisitedCount
          refine List.length_pos.mpr fun hnil => ?_
          rw [hnil] at this
          simp at this
        omega
      · rw [if_neg hf] at h
        omega
  | succ k' ih =>
    intro file st h
    by_cases hm : file ∈ st.analyzed_files
    · rw [analyze_file_visited cfg fs _ hm, analyze_file_visited cfg fs _ hm]
    · have hfold : ∀ (ds : List Str) (file2 : Str) (st2 : AState),
          unvisitedCount cfg st2 ≤ k' →
          ds.foldl (depStep cfg (fun t s => analyze_file cfg fs k' t s) file2) (.ok st2) =
          ds.foldl (depStep cfg (fun t s => analyze_file cfg fs (k' + 1) t s) file2)
            (.ok st2) := by
        intro ds
        induction ds with
        | nil => intro file2 st2 _; rfl
        | cons d ds ihds =>
          intro file2 st2 hu
          have hstep :
              depStep cfg (fun t s => analyze_file cfg fs k' t s) file2 (.ok st2) d =
              depStep cfg (fun t s => analyze_file cfg fs (k' + 1) t s) file2 (.ok st2) d := by
            simp only [depStep]
            split_ifs with h1 h2 h3
            · rfl
            · rfl
            · apply ih
              by_cases hmem : joinP cfg.root_dir
                  (relpath cfg.cwd (canonical_dep cfg.root_dir d) cfg.root_dir) ∈
                  ({ st2 with edge_list := st2.edge_list ++
                    [(joinP cfg.root_dir (relpath cfg.cwd file2 cfg.root_dir),
                      joinP cfg.root_dir
                        (relpath cfg.cwd (canonical_dep cfg.root_dir d) cfg.root_dir),
                      cfg.root_dir)] } : AState).analyzed_files
              · unfold needA
                rw [if_pos hmem]
                exact Nat.zero_le _
              · unfold needA
                rw [if_neg hmem, if_pos h3]
                exact hu
            · rfl
          rw [List.foldl_cons, List.foldl_cons, hstep]
          cases hacc : depStep cfg (fun t s => analyze_file cfg fs (k' + 1) t s) file2
              (.ok st2) d with
          | error e => rw [foldl_depStep_error, foldl_depStep_error]
          | ok st3 =>
            refine ihds file2 st3 ?_
            have hsub : st2.analyzed_files ⊆ st3.analyzed_files :=
              depStep_pres cfg _ file2 (fun r => st2.analyzed_files ⊆ r.analyzed_files)
                (fun _ _ hs => hs)
                (fun t s r hr hs => hs.trans (analyze_file_mono cfg fs hr))
                hacc (fun _ hx => hx)
            exact le_trans (unvisited_mono hsub) hu
      rw [analyze_file_succ, analyze_file_succ, if_neg hm, if_neg hm]
      cases hx : extract_dependencies fs file with
      | error e => rfl
      | ok deps =>
        refine hfold deps file _ ?_
        unfold needA at h
        rw [if_neg hm] at h
        by_cases hf : file ∈ cfg.files
        · rw [if_pos hf] at h
          have := unvisited_mark_lt hf hm
          omega
        · rw [if_neg hf] at h
          rw [unvisited_mark_eq hf]
          omega

theorem analyze_file_fuel_add (cfg : Config) (fs : Fs) (m : Nat) (j : Nat)
    (file : Str) (st : AState) (hm : needA cfg file st ≤ m) :
    analyze_file cfg fs m file st = analyze_file cfg fs (m + j) file st := by
  induction j with
  | zero => rfl
  | succ i ih =>
    rw [ih, show m + (i + 1) = (m + i) + 1 from rfl]
    exact analyze_file_fuel_step cfg fs (m + i) file st (le_trans hm (by omega))

/-- Fuel irrelevance for `_analyze_file`: any two sufficient fuels give
the same result — the recursion terminates at its visited-set fixpoint. -/
theorem analyze_file_fuel_irrel (cfg : Config) (fs : Fs) {m n : Nat}
    (file : Str) (st : AState)
    (hm : needA cfg file st ≤ m) (hn : needA cfg file st ≤ n) :
    analyze_file cfg fs m file st = analyze_file cfg fs n file st := by
  rcases Nat.le_total m n with hmn | hmn
  · rw [analyze_file_fuel_add cfg fs m (n - m) file st hm,
      Nat.add_sub_cancel' hmn]
  · rw [analyze_file_fuel_add cfg fs n (m - n) file st hn,
      Nat.add_sub_cancel' hmn]

/-- Fuel irrelevance for the root loop: any fuel at least the number of
candidate files yields the same analysis result. -/
theorem runRoots_fuel_irrel (cfg : Config) (fs : Fs) {m n : Nat}
    (hm : cfg.files.length ≤ m) (hn : cfg.files.length ≤ n) :
    runRoots cfg fs m = runRoots cfg fs n := by
  unfold runRoots
  have haux : ∀ (l : List Str), (∀ f ∈ l, f ∈ cfg.files) → ∀ acc : Except Str AState,
      l.foldl (fun acc file =>
        match acc with
        | .error e => Except.error e
        | .ok st => analyze_file cfg fs m file st) acc =
      l.foldl (fun acc file =>
        match acc with
        | .error e => Except.error e
        | .ok st => analyze_file cfg fs n file st) acc := by
    intro l
    induction l with
    | nil => intro _ acc; rfl
    | cons f fl ih =>
      intro hmem acc
      rw [List.foldl_cons, List.foldl_cons]
      have hstep : (match acc with
          | .error e => Except.error e
          | .ok st => analyze_file cfg fs m f st) =
          (match acc with
          | .error e => Except.error e
          | .ok st => analyze_file cfg fs n f st) := by
        cases acc with
        | error e => rfl
        | ok st =>
          have hneed := @needA_le_length cfg st f (hmem f (List.mem_cons_self f fl))
          exact analyze_file_fuel_irrel cfg fs f st (le_trans hneed hm)
            (le_trans hneed hn)
      rw [hstep]
      exact ih (fun x hx => hmem x (List.mem_cons_of_mem f hx)) _
  exact haux cfg.files (fun _ hx => hx) (.ok AState.init)

/-- `_analyze_file` gives the same result whatever the value of
`handle_dynamic`: `extract_dependencies` has already removed every
dynamic dependency, so the dynamic branch in the loop never fires. -/
theorem analyze_file_handle_dynamic (cfg : Config) (fs : Fs) (b1 b2 : Bool) :
    ∀ (fuel : Nat) (file : Str) (st : AState),
      analyze_file { cfg with handle_dynamic := b1 } fs fuel file st =
      analyze_file { cfg with handle_dynamic := b2 } fs fuel file st := by
  intro fuel
  induction fuel with
  | zero => intro file st; rfl
  | succ f ih =>
    intro file st
    rw [analyze_file_succ, analyze_file_succ]
    by_cases hm : file ∈ st.analyzed_files
    · rw [if_pos hm, if_pos hm]
    · rw [if_neg hm, if_neg hm]
      cases hx : extract_dependencies fs file with
      | error e => rfl
      | ok deps =>
        have hnd := extract_not_dynamic hx
        have hfold : ∀ (ds : List Str) (st2 : AState),
            (∀ d ∈ ds, is_dynamic d = false) →
            ds.foldl (depStep { cfg with handle_dynamic := b1 }
              (fun t s => analyze_file { cfg with handle_dynamic := b1 } fs f t s) file)
              (.ok st2) =
            ds.foldl (depStep { cfg with handle_dynamic := b2 }
              (fun t s => analyze_file { cfg with handle_dynamic := b2 } fs f t s) file)
              (.ok st2) := by
          intro ds
          induction ds with
          | nil => intro st2 _; rfl
          | cons d ds ihds =>
            intro st2 hds
            have hd : is_dynamic d = false := hds d (List.mem_cons_self d ds)
            have hstep :
                depStep { cfg with handle_dynamic := b1 }
                  (fun t s => analyze_file { cfg with handle_dynamic := b1 } fs f t s)
                  file (.ok st2) d =
                depStep { cfg with handle_dynamic := b2 }
                  (fun t s => analyze_file { cfg with handle_dynamic := b2 } fs f t s)
                  file (.ok st2) d := by
              simp only [depStep, hd, Bool.false_eq_true, false_and, if_false]
              split_ifs with h1 h2
              · rfl
              · exact ih _ _
              · rfl
            rw [List.foldl_cons, List.foldl_cons, hstep]
            cases hacc : depStep { cfg with handle_dynamic := b2 }
                (fun t s => analyze_file { cfg with handle_dynamic := b2 } fs f t s)
                file (.ok st2) d with
            | error e => rw [foldl_depStep_error, foldl_depStep_error]
            | ok st3 => exact ihds st3 (fun x hx => hds x (List.mem_cons_of_mem d hx))
        exact hfold deps _ (fun d hd => hnd d hd)

/-- Properties preserved by `_analyze_file` are preserved along the root
loop. -/
theorem foldl_roots_pres (cfg : Config) (fs : Fs) (fuel : Nat) (P : AState → Prop)
    (hPedge : ∀ st e, P st → P { st with edge_list := st.edge_list ++ [e] })
    (hPmark : ∀ st f, f ∉ st.analyzed_files → P st →
      P { st with analyzed_files := f :: st.analyzed_files,
                  extracted_log := st.extracted_log ++ [f] }) :
    ∀ (l : List Str) (acc : Except Str AState) (st' : AState),
      l.foldl (fun acc file =>
        match acc with
        | .error e => Except.error e
        | .ok st => analyze_file cfg fs fuel file st) acc = .ok st' →
      (∀ st0, acc = .ok st0 → P st0) → P st' := by
  intro l
  induction l with
  | nil =>
    intro acc st' h hacc
    exact hacc st' h
  | cons f fl ih =>
    intro acc st' h hacc
    rw [List.foldl_cons] at h
    refine ih _ st' h ?_
    intro st0 hstep
    cases acc with
    | error e => exact absurd hstep (by simp)
    | ok st =>
      exact analyze_file_pres cfg fs P hPedge hPmark fuel f st st0 hstep
        (hacc st rfl)

/-- With image exclusion on, a reference whose canonical target is an
image contributes nothing: no edge, no recursion, state unchanged. -/
theorem depStep_image_skip (cfg : Config) (recur : Str → AState → Except Str AState)
    (file : Str) (st : AState) (d : Str)
    (hexc : cfg.exclude_images = true)
    (himg : is_image_file (canonical_dep cfg.root_dir d) = true) :
    depStep cfg recur file (.ok st) d = .ok st := by
  simp only [depStep]
  split_ifs with h1 h2
  · rfl
  · rfl
  · exact absurd ⟨hexc, himg⟩ h2
  · exact absurd ⟨hexc, himg⟩ h2

/-- Whether the dependency loop emits an edge for a reference: it is not
skipped as dynamic and not skipped as an excluded image. -/
def emitsEdge (cfg : Config) (dep : Str) : Bool :=
  !(is_dynamic dep && cfg.handle_dynamic) &&
  !(cfg.exclude_images && is_image_file (canonical_dep cfg.root_dir dep))

/-- The edge the dependency loop appends for a reference of `file`. -/
def edgeOf (cfg : Config) (file dep : Str) : Edge :=
  (joinP cfg.root_dir (relpath cfg.cwd file cfg.root_dir),
   joinP cfg.root_dir (relpath cfg.cwd (canonical_dep cfg.root_dir dep) cfg.root_dir),
   cfg.root_dir)

/-- The re-anchored target the dependency loop computes for a
reference. -/
def targetOf (cfg : Config) (dep : Str) : Str :=
  joinP cfg.root_dir (relpath cfg.cwd (canonical_dep cfg.root_dir dep) cfg.root_dir)

/-- When no reference of a file resolves into the candidate set, the
dependency loop appends exactly one edge per emitted reference
occurrence, in order. -/
theorem foldl_depStep_no_recursion (cfg : Config)
    (recur : Str → AState → Except Str AState) (file : Str) :
    ∀ (ds : List Str) (st : AState),
      (∀ d ∈ ds, targetOf cfg d ∉ cfg.files) →
      ds.foldl (depStep cfg recur file) (.ok st) =
        .ok { st with edge_list := st.edge_list ++
          (ds.filter (emitsEdge cfg)).map (edgeOf cfg file) } := by
  intro ds
  induction ds with
  | nil => intro st _; simp
  | cons d ds ih =>
    intro st hds
    have hdt : targetOf cfg d ∉ cfg.files := hds d (List.mem_cons_self d ds)
    rw [List.foldl_cons]
    by_cases h1 : is_dynamic d = true ∧ cfg.handle_dynamic = true
    · have hstep : depStep cfg recur file (.ok st) d = .ok st := by
        simp only [depStep]
        rw [if_pos h1]
      have hfilter : (d :: ds).filter (emitsEdge cfg) = ds.filter (emitsEdge cfg) := by
        rw [List.filter_cons_of_neg]
        simp [emitsEdge, h1.1, h1.2]
      rw [hstep, hfilter]
      exact ih st (fun x hx => hds x (List.mem_cons_of_mem d hx))
    · by_cases h2 : cfg.exclude_images = true ∧
          is_image_file (canonical_dep cfg.root_dir d) = true
      · have hstep : depStep cfg recur file (.ok st) d = .ok st := by
          simp only [depStep]
          rw [if_neg h1, if_pos h2]
        have hfilter : (d :: ds).filter (emitsEdge cfg) = ds.filter (emitsEdge cfg) := by
          rw [List.filter_cons_of_neg]
          simp [emitsEdge, h2.1, h2.2]
        rw [hstep, hfilter]
        exact ih st (fun x hx => hds x (List.mem_cons_of_mem d hx))
      · have hstep : depStep cfg recur file (.ok st) d =
            .ok { st with edge_list := st.edge_list ++ [edgeOf cfg file d] } := by
          simp only [depStep]
          rw [if_neg h1, if_neg h2, if_neg (by simpa [targetOf] using hdt)]
          rfl
        have hfilter : (d :: ds).filter (emitsEdge cfg) =
            d :: ds.filter (emitsEdge cfg) := by
          rw [List.filter_cons_of_pos]
          simp only [emitsEdge, Bool.and_eq_true, Bool.not_eq_true']
          constructor
          · cases hdyn : is_dynamic d
            · simp
            · cases hh : cfg.handle_dynamic
              · simp
              · exact absurd ⟨hdyn, hh⟩ h1
          · cases hexc : cfg.exclude_images
            · simp
            · cases himg : is_image_file (canonical_dep cfg.root_dir d)
              · simp
              · exact absurd ⟨hexc, himg⟩ h2
        rw [hstep, hfilter]
        rw [ih _ (fun x hx => hds x (List.mem_cons_of_mem d hx))]
        simp

end Analyzer

namespace Modernizer

open PyStr PyPath PyRe

/-!
Translation of `src/modernizer/dependency_analyzer.py`.  The class is
textually identical to the one in `src/analyzer` (the files differ only
in docstrings), so the definitions below mirror `Analyzer`'s
definition for definition.
-/

/-- `php_patterns`. -/
def php_patterns : List RE :=
  [ .seq (.alt (lits "include".data) (lits "require".data)) (.seq (opt (lits "_once".data))
      (.seq wsStar (.seq quote (.seq capNotQuote quote)))),
    .seq (lits "use".data) (.seq wsPlus (.group (plus (.cls fun c => ¬ c = ';')))),
    .seq (lits "<script".data) (.seq (starG (.cls fun c => ¬ c = '>'))
      (.seq (lits "src=".data) (.seq quote (.seq capNotQuote quote)))),
    .seq (lits "echo".data) (.seq wsStar (.seq quote (.seq (lits "<script".data)
      (.seq (starG (.cls fun c => ¬ c = '>'))
        (.seq (lits "src=".data) (.seq quote (.seq capNotQuote quote))))))),
    .seq (lits "<link".data) (.seq (starG (.cls fun c => ¬ c = '>'))
      (.seq (lits "href=".data) (.seq quote
        (.seq (.group (.seq (plus (.cls notQuote)) (lits ".css".data))) quote)))),
    .seq (lits "<img".data) (.seq (starG (.cls fun c => ¬ c = '>'))
      (.seq (lits "src=".data) (.seq quote (.seq capNotQuote quote)))) ]

/-- `js_patterns`. -/
def js_patterns : List RE :=
  [ .seq (.alt (lits "import".data) (lits "export".data))
      (.seq (opt (.seq (starL (.cls dotChar)) (lits "from".data)))
        (.seq wsPlus (.seq quote (.seq capNotQuote quote)))),
    .seq (opt (.alt (lits "const".data) (.alt (lits "let".data) (lits "var".data))))
      (.seq wsStar (.seq (starL (.cls dotChar)) (.seq (lits "require".data)
        (.seq wsStar (.seq (.lit '(') (.seq wsStar
          (.seq quote (.seq capNotQuote quote)))))))),
    .seq (lits "import".data) (.seq wsStar (.seq (.lit '(')
      (.seq wsStar (.seq quote (.seq capNotQuote quote))))),
    .seq (lits "fetch".data) (.seq wsStar (.seq (.lit '(')
      (.seq wsStar (.seq quote (.seq capNotQuote quote))))),
    .seq (.lit '$') (.seq (.lit '.') (.seq (lits "ajax".data) (.seq wsStar
      (.seq (.lit '(') (.seq wsStar (.seq (.lit '\x7b')
        (.seq (starG (.cls fun c => ¬ c = '\x7d')) (.seq (lits "url".data)
          (.seq wsStar (.seq (.lit ':') (.seq wsStar
            (.seq quote (.seq capNotQuote quote))))))))))))),
    .seq (.lit '.') (.seq (lits "open".data) (.seq wsStar (.seq (.lit '(')
      (.seq wsStar (.seq quote (.seq (.alt (lits "GET".data) (.alt (lits "POST".data)
        (.alt (lits "PUT".data) (lits "DELETE".data)))) (.seq quote
          (.seq (.lit ',') (.seq wsStar (.seq quote
            (.seq capNotQuote quote))))))))))) ]

/-- `html_patterns`. -/
def html_patterns : List RE :=
  [ .seq (lits "<script".data) (.seq (starG (.cls fun c => ¬ c = '>'))
      (.seq (lits "src=".data) (.seq quote (.seq capNotQuote quote)))),
    .seq (lits "<link".data) (.seq (starG (.cls fun c => ¬ c = '>'))
      (.seq (lits "href=".data) (.seq quote
        (.seq (.group (.seq (plus (.cls notQuote)) (lits ".css".data))) quote)))),
    .seq (lits "<img".data) (.seq (starG (.cls fun c => ¬ c = '>'))
      (.seq (lits "src=".data) (.seq quote (.seq capNotQuote quote)))) ]

/-- `css_patterns`. -/
def css_patterns : List RE :=
  [ .seq (lits "@import".data) (.seq wsPlus (.seq quote (.seq capNotQuote quote))),
    .seq (lits "url".data) (.seq wsStar (.seq (.lit '(') (.seq wsStar
      (.seq (opt quote) (.seq capNotQuote (.seq (opt quote)
        (.seq wsStar (.lit ')')))))))) ]

/-- An identifier-start character of the interpolation pattern
`\$[a-zA-Z_\x7f-\xff]`. -/
def identStart (c : Char) : Bool :=
  c.isAlpha ∨ c = '_' ∨ (127 ≤ c.toNat ∧ c.toNat ≤ 255)

/-- `re.search(r'\$[a-zA-Z_\x7f-\xff][a-zA-Z0-9_\x7f-\xff]*', path)` as a
Boolean.  The trailing `*` can match the empty string, so a match exists
exactly when some `$` is immediately followed by an identifier-start
character. -/
def hasDollarInterp : Str → Bool
  | c :: d :: rest => (c = '$' ∧ identStart d) || hasDollarInterp (d :: rest)
  | _ => false

/-- `is_dynamic`: the path contains one of the literal indicators
`${`, `}`, `+`, `<?php`, `?>` or matches the `$identifier` interpolation
pattern. -/
def is_dynamic (path : Str) : Bool :=
  subStr ['$', '\x7b'] path || subStr ['\x7d'] path || subStr ['+'] path ||
    subStr "<?php".data path || subStr "?>".data path || hasDollarInterp path

/-- The `external_patterns` of `_is_external_dependency` (the `^` anchors
are implicit in `re.match`): `https?://`, `//`, `www\.`, `\w+://`. -/
def external_patterns : List RE :=
  [ .seq (lits "http".data) (.seq (opt (.lit 's')) (lits "://".data)),
    lits "//".data,
    .seq (lits "www".data) (.lit '.'),
    .seq (plus (.cls wordChar)) (lits "://".data) ]

/-- `_is_external_dependency`: some external pattern matches at the start
of the path (`re.match`, case-insensitive). -/
def is_external_dependency (path : Str) : Bool :=
  external_patterns.any fun r => matchesAt r path

/-- `is_image_file`: the lowercased path ends with one of the image
extensions. -/
def is_image_file (file_path : Str) : Bool :=
  [".jpg", ".jpeg", ".png", ".gif", ".bmp", ".svg", ".webp"].any fun ext =>
    endsWith ext.data (lowerStr file_path)

/-- `_extract_dependencies(content, patterns)`: for every pattern in
order, every `re.findall` match whose capture is not recognized as an
external dependency is appended.  (Each pattern has exactly one capturing
group, so `re.findall` yields plain strings and the `isinstance(match,
tuple)` branch never fires.) -/
def extract_dependencies_core (content : Str) (patterns : List RE) : List Str :=
  patterns.foldl
    (fun acc pattern =>
      acc ++ (findAll pattern content).filter fun dep => ¬ is_external_dependency dep)
    []

/-- All raw references the patterns detect in `content`, before the
external-dependency filter — the "detected references" of the
specification. -/
def detected_references (content : Str) (patterns : List RE) : List Str :=
  patterns.foldl (fun acc pattern => acc ++ findAll pattern content) []

/-- `extract_dependencies(file_path)`: read the file, select the pattern
set by extension, extract, and finally drop every dynamic dependency.
An `IOError` is caught (yielding no dependencies); a
`UnicodeDecodeError` is *not* caught by `except IOError` and
propagates, modelled by the `Except.error` result. -/
def extract_dependencies (fs : Fs) (file_path : Str) : Except Str (List Str) :=
  match fs file_path with
  | .decodeError => .error file_path
  | .ioError => .ok []
  | .ok content =>
    let dependencies :=
      if endsWith ".php".data file_path then extract_dependencies_core content php_patterns
      else if endsWith ".js".data file_path then extract_dependencies_core content js_patterns
      else if endsWith ".html".data file_path ∨ endsWith ".htm".data file_path then
        extract_dependencies_core content html_patterns
      else if endsWith ".css".data file_path then extract_dependencies_core content css_patterns
      else []
    .ok (dependencies.filter fun dep => ¬ is_dynamic dep)

/-- The canonicalization `_analyze_file` applies to a raw dependency
(lines 32–36): absolute paths are normalized directly, relative ones are
joined under `root_dir` first, and the result is normalized once more. -/
def canonical_dep (root_dir dep : Str) : Str :=
  let full := if isabs dep then normpath dep else normpath (joinP root_dir dep)
  normpath full

/-- The body of the `for dep in dependencies` loop of `_analyze_file`,
parameterized by the recursive call `recur` made on an in-project target.
On POSIX `os.path.sep` is `'/'`, so the `.replace(os.path.sep, '/')`
calls are the identity and are omitted. -/
def depStep (cfg : Config) (recur : Str → AState → Except Str AState) (file : Str)
    (acc : Except Str AState) (dep : Str) : Except Str AState :=
  match acc with
  | .error e => .error e
  | .ok st =>
    if is_dynamic dep ∧ cfg.handle_dynamic then .ok st
    else
      let full_dep_path := canonical_dep cfg.root_dir dep
      if cfg.exclude_images ∧ is_image_file full_dep_path then .ok st
      else
        let rel_file := relpath cfg.cwd file cfg.root_dir
        let rel_dep_path := relpath cfg.cwd full_dep_path cfg.root_dir
        let full_file_path := joinP cfg.root_dir rel_file
        let full_dep_path2 := joinP cfg.root_dir rel_dep_path
        let st2 : AState :=
          { st with edge_list := st.edge_list ++ [(full_file_path, full_dep_path2, cfg.root_dir)] }
        if full_dep_path2 ∈ cfg.files then recur full_dep_path2 st2 else .ok st2

/-- `_analyze_file(file, edge_list)`, with fuel making the recursion
structural: return unchanged if the file was already analyzed, otherwise
mark it, extract its dependencies and run the dependency loop, recursing
(with one unit of fuel less) into every resolved in-project target. -/
def analyze_file (cfg : Config) (fs : Fs) : Nat → Str → AState → Except Str AState
  | 0, _, st => .ok st
  | fuel + 1, file, st =>
    if file ∈ st.analyzed_files then .ok st
    else
      let st1 : AState :=
        { st with analyzed_files := file :: st.analyzed_files,
                  extracted_log := st.extracted_log ++ [file] }
      match extract_dependencies fs file with
      | .error e => .error e
      | .ok dependencies =>
        dependencies.foldl
          (depStep cfg (fun t s => analyze_file cfg fs fuel t s) file) (.ok st1)

/-- The root loop of `analyze_dependencies`, explicit in the fuel handed
to each root call. -/
def runRoots (cfg : Config) (fs : Fs) (fuel : Nat) : Except Str AState :=
  cfg.files.foldl
    (fun acc file =>
      match acc with
      | .error e => .error e
      | .ok st => analyze_file cfg fs fuel file st)
    (.ok AState.init)

/-- `analyze_dependencies()`: run every candidate file as a root call and
return the accumulated edge list.  The fuel `files.length + 1` exceeds
the depth any visited-set-guarded recursion can reach (shown by the
fuel-irrelevance theorem for `runRoots`). -/
def analyze_dependencies (cfg : Config) (fs : Fs) : Except Str (List Edge) :=
  match runRoots cfg fs (cfg.files.length + 1) with
  | .error e => .error e
  | .ok st => .ok st.edge_list

end Modernizer

/-!
## Equivalence of the two `DependencyAnalyzer` translations
-/

theorem hasDollarInterp_eq : ∀ s : Str,
    Modernizer.hasDollarInterp s = Analyzer.hasDollarInterp s
  | [] => rfl
  | [_] => rfl
  | c :: d :: rest => by
    simp only [Modernizer.hasDollarInterp, Analyzer.hasDollarInterp]
    rw [hasDollarInterp_eq (d :: rest)]
    rfl

theorem is_dynamic_eq : Modernizer.is_dynamic = Analyzer.is_dynamic := by
  funext p
  unfold Modernizer.is_dynamic Analyzer.is_dynamic
  rw [hasDollarInterp_eq p]

theorem extract_dependencies_eq :
    Modernizer.extract_dependencies = Analyzer.extract_dependencies := by
  funext fs file_path
  unfold Modernizer.extract_dependencies Analyzer.extract_dependencies
  rw [is_dynamic_eq]
  rfl

theorem depStep_eq : Modernizer.depStep = Analyzer.depStep := by
  funext cfg recur file acc d
  unfold Modernizer.depStep Analyzer.depStep
  rw [is_dynamic_eq]
  rfl

theorem analyze_file_eq (cfg : Config) (fs : Fs) :
    ∀ (fuel : Nat) (file : Str) (st : AState),
      Modernizer.analyze_file cfg fs fuel file st =
        Analyzer.analyze_file cfg fs fuel file st := by
  intro fuel
  induction fuel with
  | zero => intro file st; rfl
  | succ f ih =>
    intro file st
    rw [show Modernizer.analyze_file cfg fs (f + 1) file st =
      if file ∈ st.analyzed_files then .ok st
      else
        match Modernizer.extract_dependencies fs file with
        | .error e => .error e
        | .ok dependencies =>
          dependencies.foldl
            (Modernizer.depStep cfg (fun t s => Modernizer.analyze_file cfg fs f t s) file)
            (.ok { st with analyzed_files := file :: st.analyzed_files,
                           extracted_log := st.extracted_log ++ [file] }) from rfl,
      Analyzer.analyze_file_succ]
    rw [extract_dependencies_eq, depStep_eq,
      show (fun t s => Modernizer.analyze_file cfg fs f t s) =
        (fun t s => Analyzer.analyze_file cfg fs f t s) from
        funext fun t => funext fun s => ih t s]

theorem runRoots_eq : Modernizer.runRoots = Analyzer.runRoots := by
  funext cfg fs fuel
  unfold Modernizer.runRoots Analyzer.runRoots
  congr 1
  funext acc file
  cases acc with
  | error e => rfl
  | ok st => exact analyze_file_eq cfg fs fuel file st

theorem analyze_dependencies_eq :
    Modernizer.analyze_dependencies = Analyzer.analyze_dependencies := by
  funext cfg fs
  unfold Modernizer.analyze_dependencies Analyzer.analyze_dependencies
  rw [runRoots_eq]

/-!
## The claims

One theorem per claim (with a counterexample where the claim fails on
the code, and a witness where the theorem carries hypotheses).
-/

set_option maxRecDepth 10000

/-- C1, counterexample: the claim "no edge is ever appended with a
detected external reference as its target" fails as stated.  With root
directory `www.s` (a directory name matching the external pattern
`www\.`), the file `www.s/a.js` contains both the local reference `x.js`
and the reference `www.s/x.js`; the latter is detected by the import
pattern and classified external (so it is filtered), yet the edge
produced for the *local* reference `x.js` carries exactly the string
`www.s/x.js` as its target. -/
theorem c1_counterexample :
    "www.s/x.js".data ∈ Analyzer.detected_references
      "import \"x.js\"\nimport \"www.s/x.js\"".data Analyzer.js_patterns ∧
    Analyzer.is_external_dependency "www.s/x.js".data = true ∧
    Analyzer.analyze_dependencies
      ⟨["www.s/a.js".data], "www.s".data, true, true, "/c".data⟩
      (fun f => if f = "www.s/a.js".data
        then .ok "import \"x.js\"\nimport \"www.s/x.js\"".data
        else .ioError) =
      .ok [("www.s/a.js".data, "www.s/x.js".data, "www.s".data)] := by
  refine ⟨by decide, by decide, by decide⟩

/-- C1, amended: every reference recognized as external is removed
before resolution — the dependency list `extract_dependencies` hands to
`_analyze_file` never contains an external reference, so no edge is ever
generated *from* an external reference (although, as the counterexample
shows, an edge target string can coincide with an external-looking
reference when the root directory itself begins with an external-looking
prefix). -/
theorem c1_theorem (fs : Fs) (f : Str) (deps : List Str)
    (h : Analyzer.extract_dependencies fs f = .ok deps) :
    ∀ d ∈ deps, Analyzer.is_external_dependency d = false :=
  Analyzer.extract_not_external h

/-- C1, witness: a concrete extraction run through `c1_theorem`. -/
theorem c1_witness :
    Analyzer.is_external_dependency "b.php".data = false :=
  c1_theorem
    (fun f => if f = "r/a.php".data then .ok "include 'b.php';".data else .ioError)
    "r/a.php".data ["b.php".data] (by decide) "b.php".data (by decide)

/-- C2: `analyze_dependencies` terminates on every finite candidate set —
in the fueled embedding, every fuel at least the number of candidate
files yields the same result, so the visited-set-guarded recursion
reaches a fixpoint — and on the two-file cycle `a.php` ↔ `b.php` it
terminates with exactly the edges A→B and B→A. -/
theorem c2_theorem :
    (∀ (cfg : Config) (fs : Fs) (m n : Nat),
      cfg.files.length ≤ m → cfg.files.length ≤ n →
      Analyzer.runRoots cfg fs m = Analyzer.runRoots cfg fs n) ∧
    Analyzer.analyze_dependencies
      ⟨["r/a.php".data, "r/b.php".data], "r".data, true, true, "/c".data⟩
      (fun f => if f = "r/a.php".data then .ok "include 'b.php';".data
        else if f = "r/b.php".data then .ok "include 'a.php';".data
        else .ioError) =
      .ok [("r/a.php".data, "r/b.php".data, "r".data),
           ("r/b.php".data, "r/a.php".data, "r".data)] :=
  ⟨fun cfg fs _ _ hm hn => Analyzer.runRoots_fuel_irrel cfg fs hm hn, by decide⟩

/-- C2, witness: fuel irrelevance of `runRoots` at a concrete input,
through `c2_theorem`. -/
theorem c2_witness :
    Analyzer.runRoots
      ⟨["r/a.php".data, "r/b.php".data], "r".data, true, true, "/c".data⟩
      (fun f => if f = "r/a.php".data then .ok "include 'b.php';".data
        else if f = "r/b.php".data then .ok "include 'a.php';".data
        else .ioError) 5 =
    Analyzer.runRoots
      ⟨["r/a.php".data, "r/b.php".data], "r".data, true, true, "/c".data⟩
      (fun f => if f = "r/a.php".data then .ok "include 'b.php';".data
        else if f = "r/b.php".data then .ok "include 'a.php';".data
        else .ioError) 9 :=
  c2_theorem.1 _ _ 5 9 (by decide) (by decide)

/-- C3: `_analyze_file` is idempotent with respect to the visited set —
on an already-visited file it returns the state unchanged at every fuel
(no extraction, no edges, no recursion) — and consequently, in any
successful `analyze_dependencies` run, the trace of files on which
`extract_dependencies` was invoked contains no duplicates: each file is
extracted-from at most once. -/
theorem c3_theorem :
    (∀ (cfg : Config) (fs : Fs) (fuel : Nat) (file : Str) (st : AState),
      file ∈ st.analyzed_files → Analyzer.analyze_file cfg fs fuel file st = .ok st) ∧
    (∀ (cfg : Config) (fs : Fs) (fuel : Nat) (st' : AState),
      Analyzer.runRoots cfg fs fuel = .ok st' → st'.extracted_log.Nodup) := by
  constructor
  · intro cfg fs fuel file st hm
    exact Analyzer.analyze_file_visited cfg fs fuel hm
  · intro cfg fs fuel st' h
    unfold Analyzer.runRoots at h
    have hP : (fun st : AState => st.extracted_log.Nodup ∧
        ∀ x ∈ st.extracted_log, x ∈ st.analyzed_files) st' := by
      refine Analyzer.foldl_roots_pres cfg fs fuel
        (fun st : AState => st.extracted_log.Nodup ∧
          ∀ x ∈ st.extracted_log, x ∈ st.analyzed_files)
        ?_ ?_ cfg.files (.ok AState.init) st' h ?_
      · intro st e hp
        exact hp
      · intro st f hf hp
        obtain ⟨hnd, hsub⟩ := hp
        constructor
        · rw [List.nodup_append]
          refine ⟨hnd, List.nodup_singleton f, ?_⟩
          intro x hx
          simp only [List.mem_singleton]
          intro hxf
          exact hf (hxf ▸ hsub x hx)
        · intro x hx
          rcases List.mem_append.mp hx with hx | hx
          · exact List.mem_cons_of_mem f (hsub x hx)
          · simp only [List.mem_singleton] at hx
            exact hx ▸ List.mem_cons_self f st.analyzed_files
      · intro st0 h0
        injection h0 with h0
        subst h0
        exact ⟨List.nodup_nil, by simp [AState.init]⟩
    exact hP.1

/-- C3, witness: a concrete already-visited call through `c3_theorem`. -/
theorem c3_witness :
    Analyzer.analyze_file
      ⟨["f.js".data], "r".data, true, true, "/c".data⟩
      (fun _ => .ioError) 3 "f.js".data ⟨["f.js".data], ["f.js".data], []⟩ =
      .ok ⟨["f.js".data], ["f.js".data], []⟩ :=
  c3_theorem.1 _ _ 3 "f.js".data _ (by decide)

/-- C4, counterexample: the claim "with `handle_dynamic = false` a
dynamic reference is still canonicalized and an edge for it is
appended" fails.  The file `r/m.js` contains the dynamic reference
`${x}.js`, which is detected by the import pattern and classified
dynamic, yet with `handle_dynamic = false` the analysis yields *no*
edge: `extract_dependencies` removes every dynamic dependency before
the resolver's dynamic branch can run. -/
theorem c4_counterexample :
    "$\x7bx\x7d.js".data ∈ Analyzer.detected_references
      "import \"$\x7bx\x7d.js\"".data Analyzer.js_patterns ∧
    Analyzer.is_dynamic "$\x7bx\x7d.js".data = true ∧
    Analyzer.analyze_dependencies
      ⟨["r/m.js".data], "r".data, true, false, "/c".data⟩
      (fun f => if f = "r/m.js".data then .ok "import \"$\x7bx\x7d.js\"".data
        else .ioError) = .ok [] := by
  refine ⟨by decide, by decide, by decide⟩

/-- C4, amended: when `handle_dynamic` is false the resolver's dynamic
branch would indeed log and fall through, but the branch is unreachable:
`extract_dependencies` already filters out every dynamic reference
(for either flag value), so a dynamic reference is never canonicalized
and no edge with it as target is ever appended. -/
theorem c4_theorem (fs : Fs) (f : Str) (deps : List Str)
    (h : Analyzer.extract_dependencies fs f = .ok deps) :
    ∀ d ∈ deps, Analyzer.is_dynamic d = false :=
  Analyzer.extract_not_dynamic h

/-- C4, witness: a concrete extraction run through `c4_theorem`: the
dynamic reference has been dropped, the static one is non-dynamic. -/
theorem c4_witness :
    Analyzer.is_dynamic "x.js".data = false :=
  c4_theorem
    (fun f => if f = "r/m.js".data
      then .ok "import \"$\x7bx\x7d.js\"\nimport \"x.js\"".data else .ioError)
    "r/m.js".data ["x.js".data] (by decide) "x.js".data (by decide)

/-- C5, counterexample: the claim "extract_dependencies never raises on
an unreadable file (missing file, permission error, or encoding error)"
fails for encoding errors.  A `UnicodeDecodeError` is a `ValueError`,
not an `IOError`, so the `except IOError` handler does not catch it: the
exception propagates out of `extract_dependencies` and aborts the whole
traversal. -/
theorem c5_counterexample :
    (fun f => if f = "r/x.js".data then ReadResult.decodeError else ReadResult.ioError)
      "r/x.js".data = ReadResult.decodeError ∧
    Analyzer.extract_dependencies
      (fun f => if f = "r/x.js".data then .decodeError else .ioError)
      "r/x.js".data = .error "r/x.js".data ∧
    Analyzer.analyze_dependencies
      ⟨["r/x.js".data], "r".data, true, true, "/c".data⟩
      (fun f => if f = "r/x.js".data then .decodeError else .ioError) =
      .error "r/x.js".data := by
  refine ⟨by decide, by decide, by decide⟩

/-- C5, amended: a read failure that raises `IOError` (missing file or
permission error) is absorbed: it is logged and yields an empty
dependency list, and the traversal continues — concretely, a run over an
unreadable first file and a readable second file still produces the
second file's edge. -/
theorem c5_theorem :
    (∀ (fs : Fs) (f : Str), fs f = .ioError →
      Analyzer.extract_dependencies fs f = .ok []) ∧
    Analyzer.analyze_dependencies
      ⟨["r/u.php".data, "r/a.php".data], "r".data, true, true, "/c".data⟩
      (fun f => if f = "r/a.php".data then .ok "include 'b.php';".data
        else .ioError) =
      .ok [("r/a.php".data, "r/b.php".data, "r".data)] := by
  constructor
  · intro fs f h
    unfold Analyzer.extract_dependencies
    rw [h]
  · decide

/-- C5, witness: a concrete `IOError` read absorbed, through
`c5_theorem`. -/
theorem c5_witness :
    Analyzer.extract_dependencies (fun _ => .ioError) "a.js".data = .ok [] :=
  c5_theorem.1 (fun _ => .ioError) "a.js".data rfl

/-- C6, counterexample: the claim "the edge appears exactly once even
when the identical referencing construct occurs multiple times" fails.
A file containing `include 'b.php';` twice produces the edge
`(r/a.php, r/b.php, r)` twice: neither extraction nor the dependency
loop deduplicates, only re-extraction of whole files is suppressed. -/
theorem c6_counterexample :
    Analyzer.analyze_dependencies
      ⟨["r/a.php".data], "r".data, true, true, "/c".data⟩
      (fun f => if f = "r/a.php".data
        then .ok "include 'b.php'; include 'b.php';".data else .ioError) =
      .ok [("r/a.php".data, "r/b.php".data, "r".data),
           ("r/a.php".data, "r/b.php".data, "r".data)] := by
  decide

/-- C6, amended: for a file analyzed once whose references do not
resolve back into the candidate set, the dependency loop appends exactly
one edge per emitted reference occurrence, in order — so the edge
appears exactly once when the construct is matched exactly once, and
once per occurrence when it is repeated. -/
theorem c6_theorem (cfg : Config) (recur : Str → AState → Except Str AState)
    (file : Str) (ds : List Str) (st : AState)
    (h : ∀ d ∈ ds, Analyzer.targetOf cfg d ∉ cfg.files) :
    ds.foldl (Analyzer.depStep cfg recur file) (.ok st) =
      .ok { st with edge_list := st.edge_list ++
        (ds.filter (Analyzer.emitsEdge cfg)).map (Analyzer.edgeOf cfg file) } :=
  Analyzer.foldl_depStep_no_recursion cfg recur file ds st h

/-- C6, witness: a concrete single-occurrence loop run through
`c6_theorem`: one reference, one edge. -/
theorem c6_witness :
    ["b.php".data].foldl
      (Analyzer.depStep ⟨[], "r".data, true, true, "/c".data⟩
        (fun _ s => .ok s) "r/a.php".data) (.ok AState.init) =
      .ok { AState.init with edge_list := AState.init.edge_list ++
        ((["b.php".data].filter
          (Analyzer.emitsEdge ⟨[], "r".data, true, true, "/c".data⟩)).map
            (Analyzer.edgeOf ⟨[], "r".data, true, true, "/c".data⟩ "r/a.php".data)) } :=
  c6_theorem ⟨[], "r".data, true, true, "/c".data⟩ (fun _ s => .ok s)
    "r/a.php".data ["b.php".data] AState.init (by decide)

/-- C7: path canonicalization is idempotent — `normpath (normpath p) =
normpath p` for every path — and for every root `R`, resolving the
reference `./a/../b/x.js` under `R` yields the same canonical target as
resolving `b/x.js` under `R`. -/
theorem c7_theorem :
    (∀ p : Str, PyPath.normpath (PyPath.normpath p) = PyPath.normpath p) ∧
    (∀ R : Str, Analyzer.canonical_dep R "./a/../b/x.js".data =
      Analyzer.canonical_dep R "b/x.js".data) := by
  constructor
  · exact PyPath.normpath_idem
  · intro R
    unfold Analyzer.canonical_dep
    rw [if_neg (by decide), if_neg (by decide), PyPath.normpath_join_cancel R]

/-- C8: image exclusion is governed solely by the `exclude_images` flag
and the canonical target's extension — with the flag set, a reference
whose canonical target is an image file contributes nothing to the state
(no edge, no recursion); concretely, a server-script file containing
`<img src="pic.png">` yields no edge to `pic.png` with
`exclude_images = true` and exactly that edge with
`exclude_images = false`. -/
theorem c8_theorem :
    (∀ (cfg : Config) (recur : Str → AState → Except Str AState)
      (file : Str) (st : AState) (d : Str),
      cfg.exclude_images = true →
      Analyzer.is_image_file (Analyzer.canonical_dep cfg.root_dir d) = true →
      Analyzer.depStep cfg recur file (.ok st) d = .ok st) ∧
    Analyzer.analyze_dependencies
      ⟨["r/s.php".data], "r".data, true, true, "/c".data⟩
      (fun f => if f = "r/s.php".data then .ok "<img src=\"pic.png\">".data
        else .ioError) = .ok [] ∧
    Analyzer.analyze_dependencies
      ⟨["r/s.php".data], "r".data, false, true, "/c".data⟩
      (fun f => if f = "r/s.php".data then .ok "<img src=\"pic.png\">".data
        else .ioError) =
      .ok [("r/s.php".data, "r/pic.png".data, "r".data)] :=
  ⟨fun cfg recur file st d hexc himg =>
      Analyzer.depStep_image_skip cfg recur file st d hexc himg,
    by decide, by decide⟩

/-- C8, witness: a concrete image-reference skip through `c8_theorem`. -/
theorem c8_witness :
    Analyzer.depStep ⟨[], "r".data, true, true, "/c".data⟩
      (fun _ s => .ok s) "r/s.php".data (.ok AState.init) "pic.png".data =
      .ok AState.init :=
  c8_theorem.1 ⟨[], "r".data, true, true, "/c".data⟩ (fun _ s => .ok s)
    "r/s.php".data AState.init "pic.png".data (by decide) (by decide)

/-- C9: the two `DependencyAnalyzer` implementations (in `src/analyzer`
and `src/modernizer`) are behaviorally equivalent: on identical
constructor arguments and identical file contents, `analyze_dependencies`
returns the same result. -/
theorem c9_theorem (cfg : Config) (fs : Fs) :
    Analyzer.analyze_dependencies cfg fs = Modernizer.analyze_dependencies cfg fs :=
  (congrFun (congrFun analyze_dependencies_eq cfg) fs).symm

/-- C10: the result of `analyze_dependencies` is independent of the
`handle_dynamic` flag: `extract_dependencies` removes every dynamic
reference before the resolver's dynamic-classification branch can run,
so the branch is unreachable and both flag values produce identical
edge lists. -/
theorem c10_theorem (cfg : Config) (fs : Fs) (b1 b2 : Bool) :
    Analyzer.analyze_dependencies { cfg with handle_dynamic := b1 } fs =
      Analyzer.analyze_dependencies { cfg with handle_dynamic := b2 } fs := by
  unfold Analyzer.analyze_dependencies
  have hroots : Analyzer.runRoots { cfg with handle_dynamic := b1 } fs
      (cfg.files.length + 1) =
      Analyzer.runRoots { cfg with handle_dynamic := b2 } fs
      (cfg.files.length + 1) := by
    unfold Analyzer.runRoots
    congr 1
    funext acc file
    cases acc with
    | error e => rfl
    | ok st => exact Analyzer.analyze_file_handle_dynamic cfg fs b1 b2 _ file st
  exact hroots ▸ rfl
